import Mathlib

set_option maxHeartbeats 1000000
set_option maxRecDepth 4000

namespace CompareAndReplace

/-!
Shallow embedding of `compare_and_replace.py`.

A filesystem object is modelled by `FsTree`: a regular file with its byte
content (as a `String`), a directory with a listing of named entries (the
list order models the order `os.scandir` happens to return), a symbolic
link together with the object it resolves to, or an object of any other
kind (device, socket, ...).

The top-level filesystem is a flat association list `FS` from path strings
to objects; `os.rename`, `os.remove`, `shutil.rmtree`, `os.path.exists`,
`os.path.isdir` are modelled on it.  Console input is a list of lines;
`sys.exit`, blocking on input, and `assert` failures are the `Status`
outcomes.
-/

inductive FsTree where
  | file (content : String)
  | dir (entries : List (String × FsTree))
  | link (target : FsTree)
  | other

/-- Resolving a path that is a symlink chain yields the final target
(what `os.stat` / `open` would operate on). -/
def FsTree.resolve : FsTree → FsTree
  | .link t => t.resolve
  | t => t

/-- Source `get_type`: classify via `os.lstat` (link-aware, does not follow
symlinks): `S_ISDIR` gives "dir", `S_ISREG` gives "reg", anything else
(including a symlink itself) is "other". -/
def get_type : FsTree → String
  | .dir _ => "dir"
  | .file _ => "reg"
  | _ => "other"

/-- Source line 137: `entry.is_file(follow_symlinks=False)` — true only for a
regular file itself, never for a symlink. -/
def isFileNoFollow : FsTree → Bool
  | .file _ => true
  | _ => false

/-- Source line 145: `entry.is_dir()` — Python's default is
`follow_symlinks=True`, so this is true for a directory and also for a
symlink whose target is a directory. -/
def isDirFollow (t : FsTree) : Bool :=
  match t.resolve with
  | .dir _ => true
  | _ => false

/-- The byte content read from a path (follows symlinks, as `open` does);
only meaningful on regular files. -/
def contentOf (t : FsTree) : String :=
  match t.resolve with
  | .file s => s
  | _ => ""

/-- Source `filecmp.cmp(a, b, shallow=False)`: full byte-for-byte equality. -/
def sameContent (a b : FsTree) : Bool := contentOf a == contentOf b

/-- The listing of a directory object (empty for non-directories). -/
def entriesOf : FsTree → List (String × FsTree)
  | .dir es => es
  | _ => []

/-- The listing obtained by scanning through an entry (follows a symlink to
a directory, as opening the path does). -/
def childEntries (t : FsTree) : List (String × FsTree) := entriesOf t.resolve

/-- Starts-with on strings, computed on the underlying character lists
(Lean's `String.startsWith` does not reduce in the kernel). -/
def strStartsWith (s p : String) : Bool := s.data.take p.data.length == p.data

/-- Ends-with on strings, computed on the underlying character lists. -/
def strEndsWith (s p : String) : Bool :=
  (s.data.reverse.take p.data.length).reverse == p.data

/-- Python's string comparison: lexicographic by code point.  `charsLe` is
the reflexive (less-or-equal) version on character lists. -/
def charsLe : List Char → List Char → Bool
  | [], _ => true
  | _ :: _, [] => false
  | a :: as, b :: bs =>
    if a.toNat < b.toNat then true
    else if b.toNat < a.toNat then false
    else charsLe as bs

def strLe (a b : String) : Bool := charsLe a.data b.data

/-- Insert into a le-sorted list (used to model Python's `sorted`). -/
def insertLe (le : α → α → Bool) (a : α) : List α → List α
  | [] => [a]
  | b :: l => if le a b then a :: b :: l else b :: insertLe le a l

/-- Insertion sort with a boolean comparison; models Python's `sorted`
(the exact sorting algorithm is irrelevant: all key sequences sorted here
have pairwise-distinct keys). -/
def sortByLe (le : α → α → Bool) : List α → List α
  | [] => []
  | a :: l => insertLe le a (sortByLe le l)

/-- Source line 121: `fnmatch.fnmatchcase(entry.name, '.*.swp')` — a leading
dot, anything, then ".swp"; equivalently: starts with ".", ends with ".swp",
and is at least 5 characters long. -/
def isSwapName (s : String) : Bool :=
  strStartsWith s "." && strEndsWith s ".swp" && decide (5 ≤ s.length)

/-- Entries matching the swap glob are skipped when the per-name table `d`
is built (source lines 120-124). -/
def filterSwap (es : List (String × FsTree)) : List (String × FsTree) :=
  es.filter (fun e => !isSwapName e.1)

def namesOf (es : List (String × FsTree)) : List String := es.map Prod.fst

/-- Lookup in a directory listing with the overwrite semantics of
`d[entry.name][i] = entry`: the last occurrence of a name wins. -/
def dlookup : List (String × FsTree) → String → Option FsTree
  | [], _ => none
  | e :: rest, n =>
    match dlookup rest n with
    | some t => some t
    | none => if e.1 = n then some e.2 else none

/-- The iteration order of `sorted(d.items())`: the set of names present on
either (already swap-filtered) side, in sorted order. -/
def sortedNames (ces nes : List (String × FsTree)) : List String :=
  sortByLe strLe ((namesOf ces ++ namesOf nes).dedup)

inductive Verb where
  | delete
  | create
  | alter
  | leave
deriving DecidableEq

/-- What the body of the `for (item_name, (c_entry, n_entry))` loop decides
for one name: record an action, recurse into a directory pair, or hit
`assert 0` (the `c_entry is None and n_entry is None` case and the
change-of-type case, source lines 129-151). -/
inductive Step where
  | act (v : Verb)
  | descend (ces nes : List (String × FsTree))
  | fail

def classify (ces nes : List (String × FsTree)) (name : String) : Step :=
  match dlookup ces name, dlookup nes name with
  | none, none => .fail
  | some _, none => .act .delete
  | none, some _ => .act .create
  | some c, some n =>
    if isFileNoFollow c && isFileNoFollow n then
      .act (if sameContent c n then .leave else .alter)
    else if isDirFollow c && isDirFollow n then
      .descend (filterSwap (childEntries c)) (filterSwap (childEntries n))
    else .fail

theorem sizeOf_resolve_le : (t : FsTree) → sizeOf t.resolve ≤ sizeOf t
  | .link u => by
    have ih := sizeOf_resolve_le u
    simp only [FsTree.resolve, FsTree.link.sizeOf_spec]
    omega
  | .file s => by simp [FsTree.resolve]
  | .dir es => by simp [FsTree.resolve]
  | .other => by simp [FsTree.resolve]

theorem dlookup_mem {es : List (String × FsTree)} {n : String} {t : FsTree}
    (h : dlookup es n = some t) : (n, t) ∈ es := by
  induction es with
  | nil => simp [dlookup] at h
  | cons e rest ih =>
    rw [dlookup] at h
    cases hr : dlookup rest n with
    | some u => rw [hr] at h; cases h; exact List.mem_cons_of_mem _ (ih hr)
    | none =>
      rw [hr] at h
      obtain ⟨a, b⟩ := e
      by_cases he : a = n
      · subst he
        simp at h
        subst h
        exact List.mem_cons_self _ _
      · simp [he] at h

theorem sizeOf_filter_le (p : (String × FsTree) → Bool) (es : List (String × FsTree)) :
    sizeOf (es.filter p) ≤ sizeOf es := by
  induction es with
  | nil => simp
  | cons e rest ih =>
    rw [List.filter_cons]
    by_cases hp : p e
    · simp only [hp, if_true]
      simp only [List.cons.sizeOf_spec]
      omega
    · simp only [hp, if_false, Bool.false_eq_true]
      simp only [List.cons.sizeOf_spec]
      omega

theorem sizeOf_mem_entry {es : List (String × FsTree)} {e : String × FsTree}
    (h : e ∈ es) : sizeOf e < sizeOf es :=
  List.sizeOf_lt_of_mem h

theorem sizeOf_childEntries_lt {t : FsTree} (h : isDirFollow t = true) :
    sizeOf (childEntries t) < sizeOf t := by
  unfold isDirFollow at h
  unfold childEntries
  cases hr : t.resolve with
  | dir es =>
    have h1 : sizeOf (FsTree.dir es) ≤ sizeOf t := by
      rw [← hr]; exact sizeOf_resolve_le t
    simp only [FsTree.dir.sizeOf_spec] at h1
    simp only [entriesOf]
    omega
  | file s => rw [hr] at h; simp at h
  | link u => rw [hr] at h; simp at h
  | other => rw [hr] at h; simp at h

theorem classify_descend_sizes {ces nes c2 n2 : List (String × FsTree)} {name : String}
    (h : classify ces nes name = .descend c2 n2) :
    sizeOf c2 + sizeOf n2 < sizeOf ces + sizeOf nes := by
  unfold classify at h
  cases hc : dlookup ces name with
  | none =>
    cases hn : dlookup nes name <;> simp [hc, hn] at h
  | some c =>
    cases hn : dlookup nes name with
    | none => simp [hc, hn] at h
    | some n =>
      simp only [hc, hn] at h
      by_cases h1 : isFileNoFollow c && isFileNoFollow n
      · simp [h1] at h
      · simp only [h1, Bool.false_eq_true, if_false] at h
        by_cases h2 : isDirFollow c && isDirFollow n
        · simp only [h2, if_true, Step.descend.injEq] at h
          obtain ⟨hc2, hn2⟩ := h
          have hcd : isDirFollow c = true := (Bool.and_eq_true _ _ |>.mp h2).1
          have hnd : isDirFollow n = true := (Bool.and_eq_true _ _ |>.mp h2).2
          have hcm : sizeOf c < sizeOf ces := by
            have := sizeOf_mem_entry (dlookup_mem hc)
            simp only [Prod.mk.sizeOf_spec] at this
            omega
          have hnm : sizeOf n < sizeOf nes := by
            have := sizeOf_mem_entry (dlookup_mem hn)
            simp only [Prod.mk.sizeOf_spec] at this
            omega
          have hcs : sizeOf c2 < sizeOf c := by
            rw [← hc2]
            calc sizeOf (filterSwap (childEntries c)) ≤ sizeOf (childEntries c) :=
                  sizeOf_filter_le _ _
              _ < sizeOf c := sizeOf_childEntries_lt hcd
          have hns : sizeOf n2 < sizeOf n := by
            rw [← hn2]
            calc sizeOf (filterSwap (childEntries n)) ≤ sizeOf (childEntries n) :=
                  sizeOf_filter_le _ _
              _ < sizeOf n := sizeOf_childEntries_lt hnd
          omega
        · simp [h2] at h

/-- The body of `recurse_on_rel_path` (source lines 113-155), as a function
from the swap-filtered listings of the two sides and the sorted name list to
the flat map of actions keyed by full relative path (`none` models the
`assert 0` crash on a change of type). -/
def diffGo : String → List (String × FsTree) → List (String × FsTree) → List String →
    Option (List (String × Verb))
  | _, _, _, [] => some []
  | rel, ces, nes, name :: rest =>
    let here :=
      match h : classify ces nes name with
      | .fail => none
      | .act v => some [(rel ++ "/" ++ name, v)]
      | .descend c2 n2 => diffGo (rel ++ "/" ++ name) c2 n2 (sortedNames c2 n2)
    match here, diffGo rel ces nes rest with
    | some hs, some rs => some (hs ++ rs)
    | _, _ => none
termination_by rel ces nes names => (sizeOf ces + sizeOf nes, names.length)
decreasing_by
  · exact Prod.Lex.left _ _ (classify_descend_sizes h)
  · exact Prod.Lex.right _ (by simp only [List.length_cons]; omega)

/-- The whole `recurse_on_rel_path('.')` computation of `handle_dirs`
(producing `action_for_item_`, with actions abstracted to their verbs). -/
def treeDiff (cur_tree new_tree : FsTree) : Option (List (String × Verb)) :=
  let ces := filterSwap (entriesOf cur_tree)
  let nes := filterSwap (entriesOf new_tree)
  diffGo "." ces nes (sortedNames ces nes)

/-- Fuel-bounded executable twin of `diffGo`, used only to evaluate concrete
instances by kernel reduction (the well-founded `diffGo` itself does not
reduce definitionally).  The outer `Option` is fuel exhaustion; the inner
one is the crash, as in `diffGo`. -/
def diffGoF : Nat → String → List (String × FsTree) → List (String × FsTree) → List String →
    Option (Option (List (String × Verb)))
  | 0, _, _, _, _ => none
  | _ + 1, _, _, _, [] => some (some [])
  | fuel + 1, rel, ces, nes, name :: rest =>
    let hereF :=
      match classify ces nes name with
      | .fail => some none
      | .act v => some (some [(rel ++ "/" ++ name, v)])
      | .descend c2 n2 => diffGoF fuel (rel ++ "/" ++ name) c2 n2 (sortedNames c2 n2)
    match hereF, diffGoF fuel rel ces nes rest with
    | some hr, some rr =>
      some (match hr, rr with
            | some hs, some rs => some (hs ++ rs)
            | _, _ => none)
    | _, _ => none

theorem diffGoF_sound : ∀ (fuel : Nat) (rel : String) (ces nes : List (String × FsTree))
    (names : List String) (r : Option (List (String × Verb))),
    diffGoF fuel rel ces nes names = some r → diffGo rel ces nes names = r := by
  intro fuel
  induction fuel with
  | zero => intro rel ces nes names r h; simp [diffGoF] at h
  | succ fuel ih =>
    intro rel ces nes names r h
    cases names with
    | nil =>
      simp only [diffGoF, Option.some.injEq] at h
      simp only [diffGo]
      exact h
    | cons name rest =>
      rw [diffGoF] at h
      rw [diffGo]
      cases hc : classify ces nes name with
      | fail =>
        simp only [hc] at h ⊢
        cases hr : diffGoF fuel rel ces nes rest with
        | none => rw [hr] at h; simp at h
        | some rr =>
          rw [hr] at h
          simp at h
          simp [h]
      | act v =>
        simp only [hc] at h ⊢
        cases hr : diffGoF fuel rel ces nes rest with
        | none => rw [hr] at h; simp at h
        | some rr =>
          rw [hr] at h
          rw [ih rel ces nes rest rr hr]
          simp only [Option.some.injEq] at h
          rw [← h]
      | descend c2 n2 =>
        simp only [hc] at h ⊢
        cases hd : diffGoF fuel (rel ++ "/" ++ name) c2 n2 (sortedNames c2 n2) with
        | none => rw [hd] at h; simp at h
        | some dr =>
          rw [hd] at h
          rw [ih _ c2 n2 _ dr hd]
          cases hr : diffGoF fuel rel ces nes rest with
          | none => rw [hr] at h; simp at h
          | some rr =>
            rw [hr] at h
            rw [ih rel ces nes rest rr hr]
            simp only [Option.some.injEq] at h
            rw [← h]

/-- Fuel-bounded twin of `treeDiff`. -/
def treeDiffF (fuel : Nat) (cur_tree new_tree : FsTree) : Option (Option (List (String × Verb))) :=
  let ces := filterSwap (entriesOf cur_tree)
  let nes := filterSwap (entriesOf new_tree)
  diffGoF fuel "." ces nes (sortedNames ces nes)

theorem treeDiffF_sound {fuel : Nat} {cur_tree new_tree : FsTree}
    {r : Option (List (String × Verb))} (h : treeDiffF fuel cur_tree new_tree = some r) :
    treeDiff cur_tree new_tree = r :=
  diffGoF_sound fuel _ _ _ _ r h

/-! ## Predicates about trees used to state the claims -/

/-- Names produced by `os.scandir` never contain a path separator. -/
def slashFree (s : String) : Prop := ('/' : Char) ∉ s.data

instance (s : String) : Decidable (slashFree s) :=
  inferInstanceAs (Decidable (('/' : Char) ∉ s.data))

/-- A well-formed tree, as any tree read off a real filesystem is: within
one directory the entry names are pairwise distinct and contain no `/`. -/
inductive Wf : FsTree → Prop where
  | file (s : String) : Wf (.file s)
  | other : Wf .other
  | link {t : FsTree} : Wf t → Wf (.link t)
  | dir {es : List (String × FsTree)} :
      (namesOf es).Nodup →
      (∀ e ∈ es, slashFree e.1) →
      (∀ e ∈ es, Wf e.2) →
      Wf (.dir es)

/-- Well-formedness of one directory listing. -/
def WfE (es : List (String × FsTree)) : Prop :=
  (namesOf es).Nodup ∧ (∀ e ∈ es, slashFree e.1) ∧ (∀ e ∈ es, Wf e.2)

/-- The predicate `CleanFrom rel p` says the relative path `p` extends `rel` by one or
more name components, none of which matches the editor swap-file glob. -/
inductive CleanFrom : String → String → Prop where
  | here (rel name : String) : isSwapName name = false → CleanFrom rel (rel ++ "/" ++ name)
  | deeper (rel name p : String) : isSwapName name = false →
      CleanFrom (rel ++ "/" ++ name) p → CleanFrom rel p

/-- The two (already swap-filtered) listings contain, along the given chain
of names, a pair of entries that disagree on file-vs-directory (the
`assert 0` case of `recurse_on_rel_path`, source line 151). -/
inductive MismatchAt : List (String × FsTree) → List (String × FsTree) → List String → Prop where
  | here {ces nes : List (String × FsTree)} {name : String} {c n : FsTree} :
      dlookup ces name = some c → dlookup nes name = some n →
      ¬(isFileNoFollow c = true ∧ isFileNoFollow n = true) →
      ¬(isDirFollow c = true ∧ isDirFollow n = true) →
      MismatchAt ces nes [name]
  | deeper {ces nes : List (String × FsTree)} {name : String} {c n : FsTree}
      {rest : List String} :
      dlookup ces name = some c → dlookup nes name = some n →
      ¬(isFileNoFollow c = true ∧ isFileNoFollow n = true) →
      isDirFollow c = true → isDirFollow n = true →
      MismatchAt (filterSwap (childEntries c)) (filterSwap (childEntries n)) rest →
      MismatchAt ces nes (name :: rest)

/-- Two trees hold the same contents, differing at most in the order the
directory listings are returned: at every directory level the same names
are present and each name is bound to the same contents.  Two scans of one
real directory tree are related exactly like this. -/
def sameListing : FsTree → FsTree → Prop
  | .file s, .file t => s = t
  | .other, .other => True
  | .link a, .link b => sameListing a b
  | .dir es, .dir fs =>
      (∀ n, n ∈ namesOf es ↔ n ∈ namesOf fs) ∧
      (∀ n c d, dlookup es n = some c → dlookup fs n = some d → sameListing c d)
  | _, _ => False
termination_by a b => sizeOf a + sizeOf b
decreasing_by
  · simp only [FsTree.link.sizeOf_spec]; omega
  · have h1 : sizeOf c < sizeOf es := by
      have := sizeOf_mem_entry (dlookup_mem (by assumption : dlookup es n = some c))
      simp only [Prod.mk.sizeOf_spec] at this
      omega
    have h2 : sizeOf d < sizeOf fs := by
      have := sizeOf_mem_entry (dlookup_mem (by assumption : dlookup fs n = some d))
      simp only [Prod.mk.sizeOf_spec] at this
      omega
    simp only [FsTree.dir.sizeOf_spec]
    omega

/-! ## The verb groups (`would_`, source lines 159-166) -/

/-- Comparison used by `sorted(action_for_item_.items())`: pairs are ordered
by their first component (the relative path); the keys of a dict are
pairwise distinct, so the comparison never reaches the second component. -/
def pairLe (a b : String × Verb) : Bool := strLe a.1 b.1

def sortActs (acts : List (String × Verb)) : List (String × Verb) :=
  sortByLe pairLe acts

/-- Source lines 159-166: `would_[verb]` — the relative paths of the actions
with that verb, in the order the sorted iteration appends them. -/
def would (acts : List (String × Verb)) (v : Verb) : List String :=
  ((sortActs acts).filter (fun a => a.2 == v)).map Prod.fst

/-! ## The filesystem and the mutation layer (§ `os`, `shutil`) -/

/-- The top-level filesystem: an association list from path to object.  The
paths handled by one run (`path`, `path + ".new"`, `path + ".bak"`) are
independent top-level entries. -/
abbrev FS := List (String × FsTree)

def fsLookup : FS → String → Option FsTree
  | [], _ => none
  | e :: rest, p => if e.1 = p then some e.2 else fsLookup rest p

/-- Removal of a path (both `os.remove` and `shutil.rmtree` erase the
binding of the path; a directory object carries its whole subtree). -/
def fsErase (fs : FS) (p : String) : FS := fs.filter (fun e => !(e.1 == p))

def os_remove (fs : FS) (p : String) : FS := fsErase fs p

def shutil_rmtree (fs : FS) (p : String) : FS := fsErase fs p

/-- Model of `os.rename src dst`: move the object bound to `src` to `dst`,
replacing anything previously at `dst`. -/
def os_rename (fs : FS) (src dst : String) : FS :=
  match fsLookup fs src with
  | some t => (dst, t) :: fsErase (fsErase fs src) dst
  | none => fs

def os_path_exists (fs : FS) (p : String) : Bool := (fsLookup fs p).isSome

/-- Model of `os.path.isdir`; it follows symlinks. -/
def os_path_isdir (fs : FS) (p : String) : Bool :=
  match fsLookup fs p with
  | some t => isDirFollow t
  | none => false

/-- How an invocation ends: still running with the remaining console input,
blocked forever on console input, `sys.exit code`, or an uncaught
`AssertionError`. -/
inductive Status where
  | ok (lines : List String)
  | blocked
  | exited (code : Nat)
  | crashed
deriving DecidableEq

/-! ## `handle_files` (source lines 78-108) -/

/-- The prompt loop of `handle_files`: `get_input` discards invalid lines
(re-prompting), and the first line in `{y, b, n, q}` decides.  Source
lines 86-108. -/
def fileRespond (fs : FS) (cur_path new_path : String) : List String → FS × Status
  | [] => (fs, .blocked)
  | l :: rest =>
    if l = "y" then (os_rename fs new_path cur_path, .ok rest)
    else if l = "b" then
      let bak_path := cur_path ++ ".bak"
      let fs1 :=
        if os_path_isdir fs bak_path then shutil_rmtree fs bak_path
        else if os_path_exists fs bak_path then os_remove fs bak_path
        else fs
      let fs2 := os_rename fs1 cur_path bak_path
      let fs3 := os_rename fs2 new_path cur_path
      (fs3, .ok rest)
    else if l = "n" then (fs, .ok rest)
    else if l = "q" then (fs, .exited 1)
    else fileRespond fs cur_path new_path rest

/-- Source `handle_files`: identical content removes the candidate with no
prompt; different content prompts (`gdiff` only displays). -/
def handle_files (fs : FS) (cur_path new_path : String) (lines : List String) : FS × Status :=
  match fsLookup fs cur_path, fsLookup fs new_path with
  | some curT, some newT =>
    if sameContent curT newT then (os_remove fs new_path, .ok lines)
    else fileRespond fs cur_path new_path lines
  | _, _ => (fs, .crashed)

/-! ## `handle_dirs` (source lines 110-209) -/

/-- The `while True` prompt loop of `handle_dirs` (source lines 188-209):
invalid lines re-prompt; `d`, `c`, `a`, `l` run `gdiff` over a group (no
filesystem effect) and re-prompt; `y` installs; `n` skips. -/
def dirLoop (fs : FS) (cur_root new_root : String) : List String → FS × Status
  | [] => (fs, .blocked)
  | l :: rest =>
    if l = "y" then (os_rename (shutil_rmtree fs cur_root) new_root cur_root, .ok rest)
    else if l = "n" then (fs, .ok rest)
    else if l = "d" || l = "c" || l = "a" || l = "l" then dirLoop fs cur_root new_root rest
    else dirLoop fs cur_root new_root rest

/-- Source `handle_dirs`: compute the action map; if the `delete`, `create`
and `alter` groups are all empty, remove the candidate tree and return with
no prompting; otherwise print the report and enter the prompt loop. -/
def handle_dirs (fs : FS) (cur_root new_root : String) (lines : List String) : FS × Status :=
  match fsLookup fs cur_root, fsLookup fs new_root with
  | some curT, some newT =>
    match treeDiff curT newT with
    | none => (fs, .crashed)
    | some acts =>
      if (would acts .delete).isEmpty && (would acts .create).isEmpty
          && (would acts .alter).isEmpty then
        (shutil_rmtree fs new_root, .ok lines)
      else dirLoop fs cur_root new_root lines
  | _, _ => (fs, .crashed)

/-! ## `main` (source lines 12-67) -/

def argPath (pre : Option String) (arg : String) : String :=
  match pre with
  | some p => p ++ "/" ++ arg
  | none => arg

/-- The body of one iteration of `main`'s `for arg in argv` loop once
`cur_path` and `new_path` are fixed (source lines 34-67).  Reported errors
(`stderr` + `continue`) leave the filesystem unchanged and carry on. -/
def withPaths (fs : FS) (cur_path new_path : String) (lines : List String) : FS × Status :=
  if !os_path_exists fs new_path then (fs, .ok lines)
  else if !os_path_exists fs cur_path then (os_rename fs new_path cur_path, .ok lines)
  else
    match fsLookup fs cur_path, fsLookup fs new_path with
    | some curT, some newT =>
      if get_type curT = "other" then (fs, .ok lines)
      else if get_type newT = "other" then (fs, .ok lines)
      else if get_type curT ≠ get_type newT then (fs, .ok lines)
      else if get_type curT = "reg" then handle_files fs cur_path new_path lines
      else handle_dirs fs cur_path new_path lines
    | _, _ => (fs, .crashed)

/-- One iteration of `main`'s loop: derive the `cur`/`new` pair from the
argument (source lines 22-32), then process it. -/
def process_arg (pre : Option String) (fs : FS) (arg : String) (lines : List String) :
    FS × Status :=
  if strEndsWith (argPath pre arg) ".new" then
    withPaths fs ((argPath pre arg).dropRight 4) (argPath pre arg) lines
  else
    withPaths fs (argPath pre arg) (argPath pre arg ++ ".new") lines

/-- The argument loop of `main`: each argument is processed in turn; a
`sys.exit`, a crash, or blocking on input stops the run. -/
def runArgs (pre : Option String) (fs : FS) (lines : List String) : List String → FS × Status
  | [] => (fs, .ok lines)
  | arg :: args =>
    match process_arg pre fs arg lines with
    | (fs2, .ok lines2) => runArgs pre fs2 lines2 args
    | halt => halt

/-! ## Fuel twins for evaluation of concrete instances

`handle_dirs` calls the well-founded `treeDiff`, so concrete instances of
it (and of `process_arg` / `runArgs`) do not reduce in the kernel.  The
following twins bound only the tree-diff by fuel; their soundness lemmas
transfer kernel-checked evaluations to the real functions. -/

def handle_dirsF (fuel : Nat) (fs : FS) (cur_root new_root : String) (lines : List String) :
    Option (FS × Status) :=
  match fsLookup fs cur_root, fsLookup fs new_root with
  | some curT, some newT =>
    match treeDiffF fuel curT newT with
    | none => none
    | some none => some (fs, .crashed)
    | some (some acts) =>
      if (would acts .delete).isEmpty && (would acts .create).isEmpty
          && (would acts .alter).isEmpty then
        some (shutil_rmtree fs new_root, .ok lines)
      else some (dirLoop fs cur_root new_root lines)
  | _, _ => some (fs, .crashed)

theorem handle_dirsF_sound {fuel : Nat} {fs : FS} {cur_root new_root : String}
    {lines : List String} {out : FS × Status}
    (h : handle_dirsF fuel fs cur_root new_root lines = some out) :
    handle_dirs fs cur_root new_root lines = out := by
  unfold handle_dirsF at h
  unfold handle_dirs
  cases hc : fsLookup fs cur_root with
  | none => rw [hc] at h; simp at h; rw [← h]
  | some curT =>
    cases hn : fsLookup fs new_root with
    | none => rw [hc, hn] at h; simp at h; rw [← h]
    | some newT =>
      rw [hc, hn] at h
      dsimp only at h ⊢
      cases hd : treeDiffF fuel curT newT with
      | none => rw [hd] at h; simp at h
      | some r =>
        rw [hd] at h
        rw [treeDiffF_sound hd]
        cases r with
        | none => simp at h; rw [← h]
        | some acts =>
          dsimp only at h ⊢
          split_ifs at h ⊢ <;> simp_all

def withPathsF (fuel : Nat) (fs : FS) (cur_path new_path : String) (lines : List String) :
    Option (FS × Status) :=
  if !os_path_exists fs new_path then some (fs, .ok lines)
  else if !os_path_exists fs cur_path then some (os_rename fs new_path cur_path, .ok lines)
  else
    match fsLookup fs cur_path, fsLookup fs new_path with
    | some curT, some newT =>
      if get_type curT = "other" then some (fs, .ok lines)
      else if get_type newT = "other" then some (fs, .ok lines)
      else if get_type curT ≠ get_type newT then some (fs, .ok lines)
      else if get_type curT = "reg" then some (handle_files fs cur_path new_path lines)
      else handle_dirsF fuel fs cur_path new_path lines
    | _, _ => some (fs, .crashed)

theorem withPathsF_sound {fuel : Nat} {fs : FS} {cur_path new_path : String}
    {lines : List String} {out : FS × Status}
    (h : withPathsF fuel fs cur_path new_path lines = some out) :
    withPaths fs cur_path new_path lines = out := by
  unfold withPathsF at h
  unfold withPaths
  by_cases h1 : !os_path_exists fs new_path
  · simp only [h1, if_true] at h ⊢; simp at h; rw [← h]
  · simp only [h1, if_false, Bool.false_eq_true] at h ⊢
    by_cases h2 : !os_path_exists fs cur_path
    · simp only [h2, if_true] at h ⊢; simp at h; rw [← h]
    · simp only [h2, if_false, Bool.false_eq_true] at h ⊢
      cases hc : fsLookup fs cur_path with
      | none => rw [hc] at h; simp at h; rw [← h]
      | some curT =>
        cases hn : fsLookup fs new_path with
        | none => rw [hc, hn] at h; simp at h; rw [← h]
        | some newT =>
          rw [hc, hn] at h
          by_cases h3 : get_type curT = "other"
          · simp only [h3, if_true] at h ⊢; simp at h; rw [← h]
          · simp only [h3, if_false] at h ⊢
            by_cases h4 : get_type newT = "other"
            · simp only [h4, if_true] at h ⊢; simp at h; rw [← h]
            · simp only [h4, if_false] at h ⊢
              by_cases h5 : get_type curT ≠ get_type newT
              · rw [if_pos h5] at h ⊢; simp at h; rw [← h]
              · rw [if_neg h5] at h ⊢
                by_cases h6 : get_type curT = "reg"
                · simp only [h6, if_true] at h ⊢; simp at h; rw [← h]
                · simp only [h6, if_false] at h ⊢
                  exact handle_dirsF_sound h

def process_argF (fuel : Nat) (pre : Option String) (fs : FS) (arg : String)
    (lines : List String) : Option (FS × Status) :=
  if strEndsWith (argPath pre arg) ".new" then
    withPathsF fuel fs ((argPath pre arg).dropRight 4) (argPath pre arg) lines
  else
    withPathsF fuel fs (argPath pre arg) (argPath pre arg ++ ".new") lines

theorem process_argF_sound {fuel : Nat} {pre : Option String} {fs : FS} {arg : String}
    {lines : List String} {out : FS × Status}
    (h : process_argF fuel pre fs arg lines = some out) :
    process_arg pre fs arg lines = out := by
  unfold process_argF at h
  unfold process_arg
  by_cases h1 : strEndsWith (argPath pre arg) ".new"
  · simp only [h1, if_true] at h ⊢; exact withPathsF_sound h
  · simp only [h1, if_false, Bool.false_eq_true] at h ⊢; exact withPathsF_sound h

def runArgsF (fuel : Nat) (pre : Option String) (fs : FS) (lines : List String) :
    List String → Option (FS × Status)
  | [] => some (fs, .ok lines)
  | arg :: args =>
    match process_argF fuel pre fs arg lines with
    | none => none
    | some (fs2, .ok lines2) => runArgsF fuel pre fs2 lines2 args
    | some halt => some halt

/-! ## String toolkit: appending path components, code-point order -/

theorem str_ext {s t : String} (h : s.data = t.data) : s = t := by
  cases s; cases t; exact congrArg String.mk h

theorem str_data_append (s t : String) : (s ++ t).data = s.data ++ t.data := rfl

theorem key_data (rel n : String) : (rel ++ "/" ++ n).data = rel.data ++ '/' :: n.data := by
  rw [str_data_append, str_data_append]
  rw [show ("/" : String).data = ['/'] from rfl]
  rw [List.append_assoc]
  rfl

theorem char_toNat_inj {a b : Char} (h : a.toNat = b.toNat) : a = b := by
  rw [← Char.ofNat_toNat a, ← Char.ofNat_toNat b, h]

theorem slash_split_unique : ∀ (a : List Char) {b x y : List Char},
    ('/' : Char) ∉ a → ('/' : Char) ∉ b → a ++ '/' :: x = b ++ '/' :: y → a = b ∧ x = y := by
  intro a
  induction a with
  | nil =>
    intro b x y _ hb h
    cases b with
    | nil => simp only [List.nil_append, List.cons.injEq] at h; exact ⟨rfl, h.2⟩
    | cons d bs =>
      simp only [List.nil_append, List.cons_append, List.cons.injEq] at h
      exact absurd (h.1 ▸ List.mem_cons_self d bs) (by simpa [← h.1] using hb)
  | cons c as ih =>
    intro b x y ha hb h
    cases b with
    | nil =>
      simp only [List.cons_append, List.nil_append, List.cons.injEq] at h
      exact absurd (List.mem_cons_self c as) (by simpa [h.1] using ha)
    | cons d bs =>
      simp only [List.cons_append, List.cons.injEq] at h
      obtain ⟨hcd, hrest⟩ := h
      have ha2 : ('/' : Char) ∉ as := fun hm => ha (List.mem_cons_of_mem _ hm)
      have hb2 : ('/' : Char) ∉ bs := fun hm => hb (List.mem_cons_of_mem _ hm)
      obtain ⟨h1, h2⟩ := ih ha2 hb2 hrest
      exact ⟨by rw [hcd, h1], h2⟩

theorem key_inj {rel n1 n2 : String} (h : rel ++ "/" ++ n1 = rel ++ "/" ++ n2) : n1 = n2 := by
  have hd := congrArg String.data h
  rw [key_data, key_data] at hd
  have := List.append_cancel_left hd
  exact str_ext (by injection this)

theorem key_shallow_ne_deep {rel n1 n2 s : String} (h1 : slashFree n1) :
    rel ++ "/" ++ n1 ≠ rel ++ "/" ++ n2 ++ "/" ++ s := by
  intro h
  have hd := congrArg String.data h
  rw [key_data rel n1, key_data (rel ++ "/" ++ n2) s, key_data rel n2] at hd
  rw [List.append_assoc] at hd
  have hc := List.append_cancel_left hd
  rw [List.cons_append] at hc
  injection hc with _ h2
  exact h1 (h2.symm ▸ List.mem_append_right n2.data (List.mem_cons_self _ _))

theorem key_deep_ne_deep {rel n1 n2 s1 s2 : String} (h1 : slashFree n1) (h2 : slashFree n2)
    (hne : n1 ≠ n2) : rel ++ "/" ++ n1 ++ "/" ++ s1 ≠ rel ++ "/" ++ n2 ++ "/" ++ s2 := by
  intro h
  have hd := congrArg String.data h
  rw [key_data (rel ++ "/" ++ n1) s1, key_data (rel ++ "/" ++ n2) s2,
    key_data rel n1, key_data rel n2] at hd
  rw [List.append_assoc, List.append_assoc] at hd
  have hc := List.append_cancel_left hd
  rw [List.cons_append, List.cons_append] at hc
  injection hc with _ hc2
  obtain ⟨heq, _⟩ := slash_split_unique n1.data h1 h2 hc2
  exact hne (str_ext heq)

theorem key_shallow_ne {rel n1 n2 : String} (hne : n1 ≠ n2) :
    rel ++ "/" ++ n1 ≠ rel ++ "/" ++ n2 :=
  fun h => hne (key_inj h)

/-! ## The code-point order -/

theorem charsLe_total : ∀ (a b : List Char), charsLe a b = true ∨ charsLe b a = true := by
  intro a
  induction a with
  | nil => intro b; left; rw [charsLe]
  | cons c as ih =>
    intro b
    cases b with
    | nil => right; rw [charsLe]
    | cons d bs =>
      rw [charsLe, charsLe]
      by_cases h1 : c.toNat < d.toNat
      · left; simp [h1]
      · by_cases h2 : d.toNat < c.toNat
        · right; simp [h2]
        · cases ih bs with
          | inl h => left; simp [h1, h2, h]
          | inr h => right; simp [h1, h2, h]

theorem charsLe_trans : ∀ {a b c : List Char},
    charsLe a b = true → charsLe b c = true → charsLe a c = true := by
  intro a
  induction a with
  | nil => intro b c _ _; rw [charsLe]
  | cons x as ih =>
    intro b c hab hbc
    cases b with
    | nil => rw [charsLe] at hab; exact absurd hab (by simp)
    | cons y bs =>
      cases c with
      | nil => rw [charsLe] at hbc; exact absurd hbc (by simp)
      | cons z cs =>
        rw [charsLe] at hab hbc ⊢
        by_cases h1 : x.toNat < y.toNat
        · by_cases h2 : y.toNat < z.toNat
          · simp [show x.toNat < z.toNat by omega]
          · by_cases h3 : z.toNat < y.toNat
            · simp [h2, h3] at hbc
            · simp [show x.toNat < z.toNat by omega]
        · by_cases h4 : y.toNat < x.toNat
          · simp [h1, h4] at hab
          · by_cases h2 : y.toNat < z.toNat
            · simp [show x.toNat < z.toNat by omega]
            · by_cases h3 : z.toNat < y.toNat
              · simp [h2, h3] at hbc
              · have hxz : ¬ x.toNat < z.toNat := by omega
                have hzx : ¬ z.toNat < x.toNat := by omega
                simp only [h1, if_false, h4, hxz, hzx] at hab ⊢
                simp only [h2, if_false, h3] at hbc
                exact ih (by simpa using hab) (by simpa using hbc)

theorem charsLe_antisymm : ∀ {a b : List Char},
    charsLe a b = true → charsLe b a = true → a = b := by
  intro a
  induction a with
  | nil =>
    intro b _ hba
    cases b with
    | nil => rfl
    | cons d bs => rw [charsLe] at hba; exact absurd hba (by simp)
  | cons c as ih =>
    intro b hab hba
    cases b with
    | nil => rw [charsLe] at hab; exact absurd hab (by simp)
    | cons d bs =>
      rw [charsLe] at hab hba
      by_cases h1 : c.toNat < d.toNat
      · simp [show ¬ d.toNat < c.toNat by omega, h1] at hba
      · by_cases h2 : d.toNat < c.toNat
        · simp [h1, h2] at hab
        · have hcd : c = d := char_toNat_inj (by omega)
          simp only [h1, if_false, h2] at hab hba
          rw [ih (by simpa using hab) (by simpa using hba), hcd]

theorem strLe_total (a b : String) : strLe a b = true ∨ strLe b a = true :=
  charsLe_total a.data b.data

theorem strLe_trans {a b c : String} (h1 : strLe a b = true) (h2 : strLe b c = true) :
    strLe a c = true :=
  charsLe_trans h1 h2

theorem strLe_antisymm {a b : String} (h1 : strLe a b = true) (h2 : strLe b a = true) :
    a = b :=
  str_ext (charsLe_antisymm h1 h2)

/-! ## Sorting toolkit -/

theorem insertLe_perm (le : α → α → Bool) (a : α) :
    ∀ l : List α, (insertLe le a l).Perm (a :: l) := by
  intro l
  induction l with
  | nil => rw [insertLe]
  | cons b l ih =>
    rw [insertLe]
    by_cases h : le a b
    · rw [if_pos h]
    · rw [if_neg h]
      exact (List.Perm.cons b ih).trans (List.Perm.swap a b l)

theorem sortByLe_perm (le : α → α → Bool) : ∀ l : List α, (sortByLe le l).Perm l := by
  intro l
  induction l with
  | nil => rw [sortByLe]
  | cons a l ih =>
    rw [sortByLe]
    exact (insertLe_perm le a (sortByLe le l)).trans (List.Perm.cons a ih)

theorem mem_sortByLe {le : α → α → Bool} {l : List α} {x : α} :
    x ∈ sortByLe le l ↔ x ∈ l :=
  (sortByLe_perm le l).mem_iff

theorem sortByLe_nodup {le : α → α → Bool} {l : List α} (h : l.Nodup) :
    (sortByLe le l).Nodup :=
  ((sortByLe_perm le l).nodup_iff).mpr h

theorem pairwise_insertLe {le : α → α → Bool}
    (htot : ∀ a b, le a b = true ∨ le b a = true)
    (htrans : ∀ {a b c}, le a b = true → le b c = true → le a c = true) (a : α) :
    ∀ {l : List α}, l.Pairwise (fun x y => le x y = true) →
      (insertLe le a l).Pairwise (fun x y => le x y = true) := by
  intro l
  induction l with
  | nil => intro _; rw [insertLe]; exact List.pairwise_singleton _ a
  | cons b l ih =>
    intro hp
    rw [insertLe]
    rw [List.pairwise_cons] at hp
    by_cases h : le a b
    · rw [if_pos h]
      refine List.Pairwise.cons ?_ (List.Pairwise.cons hp.1 hp.2)
      intro x hx
      rcases List.mem_cons.mp hx with hxb | hxl
      · rw [hxb]; exact h
      · exact htrans h (hp.1 x hxl)
    · rw [if_neg h]
      have hba : le b a = true := by
        rcases htot a b with h1 | h1
        · exact absurd h1 h
        · exact h1
      refine List.Pairwise.cons ?_ (ih hp.2)
      intro x hx
      have := (insertLe_perm le a l).mem_iff.mp hx
      rcases List.mem_cons.mp this with hxa | hxl
      · rw [hxa]; exact hba
      · exact hp.1 x hxl

theorem sortByLe_pairwise {le : α → α → Bool}
    (htot : ∀ a b, le a b = true ∨ le b a = true)
    (htrans : ∀ {a b c}, le a b = true → le b c = true → le a c = true) :
    ∀ l : List α, (sortByLe le l).Pairwise (fun x y => le x y = true) := by
  intro l
  induction l with
  | nil => rw [sortByLe]; exact List.Pairwise.nil
  | cons a l ih => rw [sortByLe]; exact pairwise_insertLe htot htrans a ih

theorem sorted_nodup_unique : ∀ {l1 l2 : List String},
    l1.Pairwise (fun x y => strLe x y = true) → l2.Pairwise (fun x y => strLe x y = true) →
    l1.Nodup → l2.Nodup → (∀ x, x ∈ l1 ↔ x ∈ l2) → l1 = l2 := by
  intro l1
  induction l1 with
  | nil =>
    intro l2 _ _ _ _ hm
    cases l2 with
    | nil => rfl
    | cons b l2 => exact absurd ((hm b).mpr (List.mem_cons_self b l2)) (List.not_mem_nil b)
  | cons a l1 ih =>
    intro l2 hp1 hp2 hn1 hn2 hm
    cases l2 with
    | nil => exact absurd ((hm a).mp (List.mem_cons_self a l1)) (List.not_mem_nil a)
    | cons b l2 =>
      rw [List.pairwise_cons] at hp1 hp2
      rw [List.nodup_cons] at hn1 hn2
      have hab : a = b := by
        by_cases h : a = b
        · exact h
        · have ha2 : a ∈ l2 := by
            rcases List.mem_cons.mp ((hm a).mp (List.mem_cons_self a l1)) with h1 | h1
            · exact absurd h1 h
            · exact h1
          have hb1 : b ∈ l1 := by
            rcases List.mem_cons.mp ((hm b).mpr (List.mem_cons_self b l2)) with h1 | h1
            · exact absurd h1.symm h
            · exact h1
          exact absurd (strLe_antisymm (hp1.1 b hb1) (hp2.1 a ha2)) h
      subst hab
      have htail : ∀ x, x ∈ l1 ↔ x ∈ l2 := by
        intro x
        constructor
        · intro hx
          rcases List.mem_cons.mp ((hm x).mp (List.mem_cons_of_mem a hx)) with h1 | h1
          · exact absurd (h1 ▸ hx) hn1.1
          · exact h1
        · intro hx
          rcases List.mem_cons.mp ((hm x).mpr (List.mem_cons_of_mem a hx)) with h1 | h1
          · exact absurd (h1 ▸ hx) hn2.1
          · exact h1
      rw [ih hp1.2 hp2.2 hn1.2 hn2.2 htail]

/-! ## `sortedNames` and `dlookup` -/

theorem mem_sortedNames {ces nes : List (String × FsTree)} {n : String} :
    n ∈ sortedNames ces nes ↔ n ∈ namesOf ces ++ namesOf nes := by
  unfold sortedNames
  rw [mem_sortByLe, List.mem_dedup]

theorem sortedNames_nodup (ces nes : List (String × FsTree)) :
    (sortedNames ces nes).Nodup :=
  sortByLe_nodup (List.nodup_dedup _)

theorem sortedNames_pairwise (ces nes : List (String × FsTree)) :
    (sortedNames ces nes).Pairwise (fun x y => strLe x y = true) :=
  sortByLe_pairwise strLe_total (fun h1 h2 => strLe_trans h1 h2) _

theorem dlookup_mem_names {es : List (String × FsTree)} {n : String} {t : FsTree}
    (h : dlookup es n = some t) : n ∈ namesOf es := by
  have := dlookup_mem h
  exact List.mem_map.mpr ⟨(n, t), this, rfl⟩

theorem dlookup_eq_none {es : List (String × FsTree)} {n : String} :
    dlookup es n = none ↔ n ∉ namesOf es := by
  induction es with
  | nil => simp [dlookup, namesOf]
  | cons e rest ih =>
    rw [dlookup]
    cases hr : dlookup rest n with
    | some t =>
      constructor
      · intro h; cases h
      · intro h
        have hn : n ∈ namesOf rest := dlookup_mem_names hr
        exact absurd (List.mem_cons_of_mem e.1 hn) h
    | none =>
      constructor
      · intro h
        by_cases he : e.1 = n
        · rw [if_pos he] at h; cases h
        · intro hm
          rcases (by simpa [namesOf] using hm : n = e.1 ∨ n ∈ namesOf rest) with h1 | h1
          · exact he h1.symm
          · exact (ih.mp hr) h1
      · intro h
        rw [if_neg (fun he => h (by simp [namesOf, he]))]

theorem mem_namesOf_filterSwap {es : List (String × FsTree)} {n : String}
    (h : n ∈ namesOf (filterSwap es)) : isSwapName n = false := by
  rcases List.mem_map.mp h with ⟨e, he, hfst⟩
  have := List.of_mem_filter he
  rw [← hfst]
  simpa using this

theorem dlookup_filterSwap {es : List (String × FsTree)} {n : String}
    (h : isSwapName n = false) : dlookup (filterSwap es) n = dlookup es n := by
  induction es with
  | nil => rfl
  | cons e rest ih =>
    rw [show filterSwap (e :: rest) = if !isSwapName e.1 then e :: filterSwap rest
        else filterSwap rest by rw [filterSwap, List.filter_cons]; rfl]
    by_cases hs : isSwapName e.1
    · rw [if_neg (by simp [hs])]
      rw [ih, dlookup]
      cases hr : dlookup rest n with
      | some t => rfl
      | none =>
        rw [if_neg (fun he => by rw [he] at hs; rw [hs] at h; cases h)]
    · rw [if_pos (by simp [hs])]
      rw [dlookup, dlookup, ih]

/-! ## Well-formedness lemmas -/

theorem wf_resolve : ∀ {t : FsTree}, Wf t → Wf t.resolve := by
  intro t h
  induction h with
  | file s => exact Wf.file s
  | other => exact Wf.other
  | link _ ih => simpa [FsTree.resolve] using ih
  | dir h1 h2 h3 => exact Wf.dir h1 h2 h3

theorem wfE_of_dir {es : List (String × FsTree)} (h : Wf (.dir es)) : WfE es := by
  cases h with
  | dir h1 h2 h3 => exact ⟨h1, h2, h3⟩

theorem wfE_filterSwap {es : List (String × FsTree)} (h : WfE es) : WfE (filterSwap es) := by
  obtain ⟨h1, h2, h3⟩ := h
  refine ⟨?_, ?_, ?_⟩
  · exact List.Nodup.sublist (List.Sublist.map Prod.fst (List.filter_sublist es)) h1
  · intro e he; exact h2 e (List.mem_of_mem_filter he)
  · intro e he; exact h3 e (List.mem_of_mem_filter he)

theorem wfE_childEntries {t : FsTree} (h : Wf t) (hd : isDirFollow t = true) :
    WfE (childEntries t) := by
  have hr := wf_resolve h
  unfold isDirFollow at hd
  unfold childEntries
  cases hres : t.resolve with
  | dir es => rw [hres] at hr; exact wfE_of_dir hr
  | file s => rw [hres] at hd; simp at hd
  | link u => rw [hres] at hd; simp at hd
  | other => rw [hres] at hd; simp at hd

theorem wfE_dlookup {es : List (String × FsTree)} {n : String} {t : FsTree}
    (h : WfE es) (hl : dlookup es n = some t) : Wf t :=
  h.2.2 (n, t) (dlookup_mem hl)

theorem classify_descend_wf {ces nes c2 n2 : List (String × FsTree)} {name : String}
    (hwc : WfE ces) (hwn : WfE nes)
    (h : classify ces nes name = .descend c2 n2) : WfE c2 ∧ WfE n2 := by
  unfold classify at h
  cases hc : dlookup ces name with
  | none => cases hn : dlookup nes name <;> simp [hc, hn] at h
  | some c =>
    cases hn : dlookup nes name with
    | none => simp [hc, hn] at h
    | some n =>
      simp only [hc, hn] at h
      by_cases h1 : isFileNoFollow c && isFileNoFollow n
      · simp [h1] at h
      · simp only [h1, Bool.false_eq_true, if_false] at h
        by_cases h2 : isDirFollow c && isDirFollow n
        · simp only [h2, if_true, Step.descend.injEq] at h
          obtain ⟨hc2, hn2⟩ := h
          have hcd : isDirFollow c = true := (Bool.and_eq_true _ _ |>.mp h2).1
          have hnd : isDirFollow n = true := (Bool.and_eq_true _ _ |>.mp h2).2
          rw [← hc2, ← hn2]
          exact ⟨wfE_filterSwap (wfE_childEntries (wfE_dlookup hwc hc) hcd),
            wfE_filterSwap (wfE_childEntries (wfE_dlookup hwn hn) hnd)⟩
        · simp [h2] at h

theorem runArgsF_sound {fuel : Nat} {pre : Option String} : ∀ {args : List String} {fs : FS}
    {lines : List String} {out : FS × Status},
    runArgsF fuel pre fs lines args = some out → runArgs pre fs lines args = out := by
  intro args
  induction args with
  | nil => intro fs lines out h; simpa [runArgsF, runArgs] using h
  | cons arg rest ih =>
    intro fs lines out h
    rw [runArgsF] at h
    rw [runArgs]
    cases hp : process_argF fuel pre fs arg lines with
    | none => rw [hp] at h; simp at h
    | some pout =>
      rw [hp] at h
      rw [process_argF_sound hp]
      obtain ⟨fs2, st⟩ := pout
      cases st with
      | ok lines2 =>
        dsimp only at h ⊢
        exact ih h
      | blocked =>
        dsimp only at h ⊢
        simp only [Option.some.injEq] at h
        rw [← h]
      | exited code =>
        dsimp only at h ⊢
        simp only [Option.some.injEq] at h
        rw [← h]
      | crashed =>
        dsimp only at h ⊢
        simp only [Option.some.injEq] at h
        rw [← h]

/-! ## Lookup lemmas for the mutation layer -/

theorem fsLookup_fsErase {fs : FS} {p q : String} :
    fsLookup (fsErase fs p) q = if q = p then none else fsLookup fs q := by
  induction fs with
  | nil => simp only [fsErase, List.filter_nil, fsLookup]; split <;> rfl
  | cons e rest ih =>
    simp only [fsErase, List.filter_cons] at ih ⊢
    by_cases hep : e.1 = p <;> by_cases heq : e.1 = q <;>
      simp [fsLookup, hep, heq, ih] <;> simp_all [fsLookup]

theorem fsLookup_os_rename {fs : FS} {src dst q : String} {t : FsTree}
    (h : fsLookup fs src = some t) :
    fsLookup (os_rename fs src dst) q =
      if q = dst then some t else if q = src then none else fsLookup fs q := by
  unfold os_rename
  rw [h]
  rw [fsLookup]
  by_cases hqd : dst = q
  · rw [if_pos hqd, if_pos hqd.symm]
  · rw [if_neg hqd, if_neg (fun hh => hqd hh.symm)]
    rw [fsLookup_fsErase, fsLookup_fsErase]
    by_cases hqd2 : q = dst
    · exact absurd hqd2.symm hqd
    · rw [if_neg hqd2]

theorem str_ne_append_bak (s : String) : s ≠ s ++ ".bak" := by
  intro h
  have := congrArg (fun t : String => t.data.length) h
  simp only [str_data_append, List.length_append] at this
  simp at this

/-! ## Behavior of the `handle_dirs` prompt loop on terminal responses -/

theorem dirs_skip {fs : FS} {cur_root new_root : String} {lines : List String}
    {curT newT : FsTree} {acts : List (String × Verb)}
    (hc : fsLookup fs cur_root = some curT)
    (hn : fsLookup fs new_root = some newT)
    (hd : treeDiff curT newT = some acts)
    (hne : ((would acts .delete).isEmpty && (would acts .create).isEmpty
      && (would acts .alter).isEmpty) = false) :
    handle_dirs fs cur_root new_root ("n" :: lines) = (fs, .ok lines) := by
  unfold handle_dirs
  rw [hc, hn]
  dsimp only
  rw [hd]
  dsimp only
  rw [if_neg (by simp [hne])]
  rw [dirLoop]
  rw [if_neg (by decide), if_pos rfl]

/-! ## Claim C5 -/

/-- C5 (confirmed): for every directory merge whose `delete`, `create` and
`alter` groups are all empty, `handle_dirs` reports no effect and removes
the candidate tree outright — for every console input, even none at all
(no prompting), and the resulting filesystem is exactly the old one minus
the candidate root (no other mutation). -/
theorem c5_no_effect_removes_candidate
    {fs : FS} {cur_root new_root : String} {curT newT : FsTree} {acts : List (String × Verb)}
    (hc : fsLookup fs cur_root = some curT)
    (hn : fsLookup fs new_root = some newT)
    (hd : treeDiff curT newT = some acts)
    (h1 : would acts .delete = []) (h2 : would acts .create = [])
    (h3 : would acts .alter = []) :
    ∀ lines : List String,
      handle_dirs fs cur_root new_root lines = (shutil_rmtree fs new_root, .ok lines) := by
  intro lines
  unfold handle_dirs
  rw [hc, hn]
  dsimp only
  rw [hd]
  dsimp only
  rw [if_pos (by simp [h1, h2, h3])]

def fsC5 : FS := [("d", .dir [("a", .file "1")]), ("d.new", .dir [("a", .file "1")])]

theorem c5_no_effect_removes_candidate_witness :
    handle_dirs fsC5 "d" "d.new" [] = (shutil_rmtree fsC5 "d.new", .ok []) :=
  c5_no_effect_removes_candidate
    (show fsLookup fsC5 "d" = some (.dir [("a", .file "1")]) from rfl)
    (show fsLookup fsC5 "d.new" = some (.dir [("a", .file "1")]) from rfl)
    (treeDiffF_sound (show treeDiffF 40 (.dir [("a", .file "1")]) (.dir [("a", .file "1")])
      = some (some [("./a", .leave)]) from rfl)) rfl rfl rfl []

/-! ## Claim C1 -/

def fsC1 : FS := [("p", .dir [("a", .file "1")]), ("p.new", .dir [("a", .file "2")])]

/-- C1 (counterexample): the claim says responding `n` at the top-level
prompt discards the new tree (removes `newRoot` from the filesystem).  On
this concrete filesystem the trees differ, the operator answers `n`, and
`handle_dirs` returns with the filesystem completely unchanged — the
candidate root `p.new` is still present. -/
theorem c1_skip_does_not_discard_counterexample :
    handle_dirs fsC1 "p" "p.new" ["n"] = (fsC1, .ok []) ∧
    fsLookup fsC1 "p.new" = some (.dir [("a", .file "2")]) :=
  ⟨handle_dirsF_sound (show handle_dirsF 40 fsC1 "p" "p.new" ["n"]
    = some (fsC1, .ok []) from rfl), rfl⟩

/-- C1 (amended): when the operator responds `n` at the top-level prompt of
the directory-merge workflow, the program terminates the workflow leaving
the filesystem untouched: the current tree is untouched and the new tree is
NOT removed — it stays in place (source lines 196-198 print "skipping"
and return without `rmtree`). -/
theorem c1_skip_leaves_both_trees
    {fs : FS} {cur_root new_root : String} {lines : List String}
    {curT newT : FsTree} {acts : List (String × Verb)}
    (hc : fsLookup fs cur_root = some curT)
    (hn : fsLookup fs new_root = some newT)
    (hd : treeDiff curT newT = some acts)
    (hne : ((would acts .delete).isEmpty && (would acts .create).isEmpty
      && (would acts .alter).isEmpty) = false) :
    handle_dirs fs cur_root new_root ("n" :: lines) = (fs, .ok lines) ∧
    fsLookup fs new_root = some newT ∧ fsLookup fs cur_root = some curT :=
  ⟨dirs_skip hc hn hd hne, hn, hc⟩

def fsC1w : FS := [("q", .dir [("b", .file "x")]), ("q.new", .dir [])]

theorem c1_skip_leaves_both_trees_witness :
    handle_dirs fsC1w "q" "q.new" ["n"] = (fsC1w, .ok []) ∧
    fsLookup fsC1w "q.new" = some (.dir []) ∧
    fsLookup fsC1w "q" = some (.dir [("b", .file "x")]) :=
  c1_skip_leaves_both_trees
    (show fsLookup fsC1w "q" = some (.dir [("b", .file "x")]) from rfl)
    (show fsLookup fsC1w "q.new" = some (.dir []) from rfl)
    (treeDiffF_sound (show treeDiffF 40 (.dir [("b", .file "x")]) (.dir [])
      = some (some [("./b", .delete)]) from rfl)) rfl

/-! ## Claim C6 -/

def fsC6 : FS := [("g", .file "s"), ("g.new", .file "s")]

/-- C6 (counterexample): the claim says that for byte-identical files no
mutation occurs without an explicit replace choice by the operator.  On
this concrete filesystem the two files are byte-identical, the operator is
never consulted (the input line list is empty and the run still finishes),
and yet the filesystem mutates: the `.new` candidate is removed. -/
theorem c6_candidate_removed_counterexample :
    handle_files fsC6 "g" "g.new" [] = ([("g", .file "s")], .ok []) ∧
    fsLookup fsC6 "g.new" = some (.file "s") :=
  ⟨rfl, rfl⟩

/-- C6 (amended): for every pair of byte-identical regular files handled at
the single-file level, the comparison classifies the pair as unchanged and
the current file is never mutated; the byte-identical `.new` candidate,
however, is removed automatically, without any prompting (source lines
79-82). -/
theorem c6_identical_leaves_current_removes_candidate
    {fs : FS} {cur_path new_path : String} {lines : List String} {cc : String}
    (hc : fsLookup fs cur_path = some (.file cc))
    (hn : fsLookup fs new_path = some (.file cc))
    (hne : cur_path ≠ new_path) :
    handle_files fs cur_path new_path lines = (os_remove fs new_path, .ok lines) ∧
    fsLookup (os_remove fs new_path) cur_path = some (.file cc) ∧
    fsLookup (os_remove fs new_path) new_path = none := by
  refine ⟨?_, ?_, ?_⟩
  · unfold handle_files
    rw [hc, hn]
    dsimp only
    rw [if_pos (by simp [sameContent])]
  · rw [show os_remove fs new_path = fsErase fs new_path from rfl,
      fsLookup_fsErase, if_neg hne, hc]
  · rw [show os_remove fs new_path = fsErase fs new_path from rfl,
      fsLookup_fsErase, if_pos rfl]

def fsC6w : FS := [("h", .file "z"), ("h.new", .file "z"), ("k", .file "w")]

theorem c6_identical_leaves_current_removes_candidate_witness :
    handle_files fsC6w "h" "h.new" [] = (os_remove fsC6w "h.new", .ok []) ∧
    fsLookup (os_remove fsC6w "h.new") "h" = some (.file "z") ∧
    fsLookup (os_remove fsC6w "h.new") "h.new" = none :=
  c6_identical_leaves_current_removes_candidate
    (show fsLookup fsC6w "h" = some (.file "z") from rfl)
    (show fsLookup fsC6w "h.new" = some (.file "z") from rfl) (by decide)

/-! ## Claim C4 -/

/-- C4 (confirmed): `backupThenReplace` on a current file (the `b` response
of `handle_files`, reachable when the contents differ), with an arbitrary
prior object at the `.bak` path (none, a file, or a directory — the
filesystem `fs` is unconstrained there): afterwards the `.bak` path holds
exactly the content the current path had immediately before the call (the
previous backup, whatever it was, is unconditionally discarded — exactly
one backup generation), the new content is installed at the current path,
and the candidate path is gone. -/
theorem c4_backup_then_replace
    {fs : FS} {cur_path new_path : String} {cc nc : String} {lines : List String}
    (hc : fsLookup fs cur_path = some (.file cc))
    (hn : fsLookup fs new_path = some (.file nc))
    (hdiff : cc ≠ nc)
    (hne1 : cur_path ≠ new_path)
    (hne2 : new_path ≠ cur_path ++ ".bak") :
    ∃ fs3 : FS,
      handle_files fs cur_path new_path ("b" :: lines) = (fs3, .ok lines) ∧
      fsLookup fs3 (cur_path ++ ".bak") = some (.file cc) ∧
      fsLookup fs3 cur_path = some (.file nc) ∧
      fsLookup fs3 new_path = none := by
  have hcb : cur_path ≠ cur_path ++ ".bak" := str_ne_append_bak cur_path
  unfold handle_files
  rw [hc, hn]
  dsimp only
  rw [if_neg (by simp [sameContent, contentOf, FsTree.resolve]; exact hdiff)]
  rw [fileRespond]
  rw [if_neg (by decide), if_pos rfl]
  dsimp only
  generalize hg : (if os_path_isdir fs (cur_path ++ ".bak")
      then shutil_rmtree fs (cur_path ++ ".bak")
      else if os_path_exists fs (cur_path ++ ".bak")
      then os_remove fs (cur_path ++ ".bak") else fs) = fs1
  have hfs1 : ∀ q : String, q ≠ cur_path ++ ".bak" → fsLookup fs1 q = fsLookup fs q := by
    intro q hq
    rw [← hg]
    by_cases h1 : os_path_isdir fs (cur_path ++ ".bak")
    · rw [if_pos h1, show shutil_rmtree fs (cur_path ++ ".bak")
        = fsErase fs (cur_path ++ ".bak") from rfl, fsLookup_fsErase, if_neg hq]
    · rw [if_neg h1]
      by_cases h2 : os_path_exists fs (cur_path ++ ".bak")
      · rw [if_pos h2, show os_remove fs (cur_path ++ ".bak")
          = fsErase fs (cur_path ++ ".bak") from rfl, fsLookup_fsErase, if_neg hq]
      · rw [if_neg h2]
  have hfs1c : fsLookup fs1 cur_path = some (.file cc) := by rw [hfs1 cur_path hcb, hc]
  have hfs1n : fsLookup fs1 new_path = some (.file nc) := by rw [hfs1 new_path hne2, hn]
  have hfs2n : fsLookup (os_rename fs1 cur_path (cur_path ++ ".bak")) new_path
      = some (.file nc) := by
    rw [fsLookup_os_rename hfs1c, if_neg hne2, if_neg (fun h => hne1 h.symm), hfs1n]
  refine ⟨_, rfl, ?_, ?_, ?_⟩
  · rw [fsLookup_os_rename hfs2n, if_neg (fun h => hcb h.symm),
      if_neg (fun h => hne2 h.symm)]
    rw [fsLookup_os_rename hfs1c, if_pos rfl]
  · rw [fsLookup_os_rename hfs2n, if_pos rfl]
  · rw [fsLookup_os_rename hfs2n, if_neg (fun h => hne1 h.symm), if_pos rfl]

def fsC4 : FS := [("f", .file "old"), ("f.new", .file "fresh"),
  ("f.bak", .dir [("junk", .file "j")])]

theorem c4_backup_then_replace_witness :
    ∃ fs3 : FS,
      handle_files fsC4 "f" "f.new" ["b"] = (fs3, .ok []) ∧
      fsLookup fs3 ("f" ++ ".bak") = some (.file "old") ∧
      fsLookup fs3 "f" = some (.file "fresh") ∧
      fsLookup fs3 "f.new" = none :=
  c4_backup_then_replace
    (show fsLookup fsC4 "f" = some (.file "old") from rfl)
    (show fsLookup fsC4 "f.new" = some (.file "fresh") from rfl)
    (by decide) (by decide) (by decide)

/-! ## Claim C10 -/

def fsC10 : FS := [("r", .dir [("c", .file "3")]), ("r.new", .dir [("c", .file "4")])]

/-- C10 (counterexample): the claim contrasts the single-file skip with the
directory workflow's skip path, asserting the latter removes the
candidate ("unlike the directory workflow's skip path").  On this concrete
filesystem the directory workflow's `n` response also leaves the candidate
tree `r.new` in place — the contrast is false. -/
theorem c10_dir_skip_contrast_counterexample :
    handle_dirs fsC10 "r" "r.new" ["n"] = (fsC10, .ok []) ∧
    fsLookup fsC10 "r.new" = some (.dir [("c", .file "4")]) :=
  ⟨handle_dirsF_sound (show handle_dirsF 40 fsC10 "r" "r.new" ["n"]
    = some (fsC10, .ok []) from rfl), rfl⟩

/-- C10 (amended): in the single-file workflow, when the files differ and
the operator responds `n`, both files are left unchanged on disk — the
current file keeps its content and the `.new` candidate is not removed and
remains in place; this matches the directory workflow's skip path, which
likewise leaves the candidate tree in place. -/
theorem c10_file_skip_noop :
    (∀ (fs : FS) (cur_path new_path : String) (lines : List String) (cc nc : String),
      fsLookup fs cur_path = some (.file cc) →
      fsLookup fs new_path = some (.file nc) →
      cc ≠ nc →
      handle_files fs cur_path new_path ("n" :: lines) = (fs, .ok lines) ∧
      fsLookup fs cur_path = some (.file cc) ∧
      fsLookup fs new_path = some (.file nc)) ∧
    (∀ (fs : FS) (cur_root new_root : String) (lines : List String) (curT newT : FsTree)
      (acts : List (String × Verb)),
      fsLookup fs cur_root = some curT →
      fsLookup fs new_root = some newT →
      treeDiff curT newT = some acts →
      ((would acts .delete).isEmpty && (would acts .create).isEmpty
        && (would acts .alter).isEmpty) = false →
      handle_dirs fs cur_root new_root ("n" :: lines) = (fs, .ok lines) ∧
      fsLookup fs new_root = some newT) := by
  constructor
  · intro fs cur_path new_path lines cc nc hc hn hdiff
    refine ⟨?_, hc, hn⟩
    unfold handle_files
    rw [hc, hn]
    dsimp only
    rw [if_neg (by simp [sameContent, contentOf, FsTree.resolve]; exact hdiff)]
    rw [fileRespond]
    rw [if_neg (by decide), if_neg (by decide), if_pos rfl]
  · intro fs cur_root new_root lines curT newT acts hc hn hd hne
    exact ⟨dirs_skip hc hn hd hne, hn⟩

def fsC10w : FS := [("s", .file "7"), ("s.new", .file "8"),
  ("t", .dir [("e", .file "5")]), ("t.new", .dir [("e", .file "6")])]

theorem c10_file_skip_noop_witness :
    (handle_files fsC10w "s" "s.new" ["n"] = (fsC10w, .ok []) ∧
      fsLookup fsC10w "s" = some (.file "7") ∧
      fsLookup fsC10w "s.new" = some (.file "8")) ∧
    (handle_dirs fsC10w "t" "t.new" ["n"] = (fsC10w, .ok []) ∧
      fsLookup fsC10w "t.new" = some (.dir [("e", .file "6")])) :=
  ⟨c10_file_skip_noop.1 fsC10w "s" "s.new" [] "7" "8"
      (show fsLookup fsC10w "s" = some (.file "7") from rfl)
      (show fsLookup fsC10w "s.new" = some (.file "8") from rfl) (by decide),
    c10_file_skip_noop.2 fsC10w "t" "t.new" [] _ _ [("./e", .alter)]
      (show fsLookup fsC10w "t" = some (.dir [("e", .file "5")]) from rfl)
      (show fsLookup fsC10w "t.new" = some (.dir [("e", .file "6")]) from rfl)
      (treeDiffF_sound (show treeDiffF 40 (.dir [("e", .file "5")]) (.dir [("e", .file "6")])
        = some (some [("./e", .alter)]) from rfl)) rfl⟩

/-! ## Claim C3 -/

/-- C3 (code bug, evaluation at the failing input): top-level
classification (`get_type`, via `os.lstat`) treats a symlink as its own
type ("other", first conjunct), and the in-traversal file test
(`is_file(follow_symlinks=False)`) also refuses to follow (second
conjunct); but the in-traversal directory test is `is_dir()` with Python's
default `follow_symlinks=True` (third conjunct), so when both sides hold a
symlink named `s` pointing at a directory, the traversal classifies `s` as
a directory and recurses through the link — the computed ActionSet contains
`./s/x`, an entry of the link's *target* (fourth conjunct), instead of
treating the symlink as an unsupported entry type. -/
theorem c3_symlink_followed_in_traversal :
    get_type (.link (.dir [("x", .file "1")])) = "other" ∧
    isFileNoFollow (.link (.file "c")) = false ∧
    isDirFollow (.link (.dir [])) = true ∧
    treeDiff (.dir [("s", .link (.dir [("x", .file "1")]))]) (.dir [("s", .link (.dir []))])
      = some [("./s/x", .delete)] :=
  ⟨rfl, rfl, rfl,
    treeDiffF_sound (show treeDiffF 40 (.dir [("s", .link (.dir [("x", .file "1")]))])
      (.dir [("s", .link (.dir []))]) = some (some [("./s/x", .delete)]) from rfl)⟩

/-! ## Claim C2: a type mismatch inside a directory merge crashes the run -/

theorem diffGo_none_of_fail {rel : String} {ces nes : List (String × FsTree)} {name : String}
    (hf : classify ces nes name = .fail) :
    ∀ {names : List String}, name ∈ names → diffGo rel ces nes names = none := by
  intro names
  induction names with
  | nil => intro h; cases h
  | cons m rest ih =>
    intro hm
    rw [diffGo]
    cases hc : classify ces nes m with
    | fail => rfl
    | act v =>
      have hmem : name ∈ rest := by
        rcases List.mem_cons.mp hm with h1 | h1
        · rw [h1] at hf; rw [hf] at hc; cases hc
        · exact h1
      rw [ih hmem]
    | descend c2 n2 =>
      have hmem : name ∈ rest := by
        rcases List.mem_cons.mp hm with h1 | h1
        · rw [h1] at hf; rw [hf] at hc; cases hc
        · exact h1
      rw [ih hmem]
      dsimp only
      cases hd : diffGo (rel ++ "/" ++ m) c2 n2 (sortedNames c2 n2) <;> rfl

theorem diffGo_none_of_descend_none {rel : String} {ces nes c2 n2 : List (String × FsTree)}
    {name : String} (hf : classify ces nes name = .descend c2 n2)
    (hnone : diffGo (rel ++ "/" ++ name) c2 n2 (sortedNames c2 n2) = none) :
    ∀ {names : List String}, name ∈ names → diffGo rel ces nes names = none := by
  intro names
  induction names with
  | nil => intro h; cases h
  | cons m rest ih =>
    intro hm
    rw [diffGo]
    cases hc : classify ces nes m with
    | fail => rfl
    | act v =>
      have hmem : name ∈ rest := by
        rcases List.mem_cons.mp hm with h1 | h1
        · rw [h1] at hf; rw [hf] at hc; cases hc
        · exact h1
      rw [ih hmem]
    | descend c2' n2' =>
      rcases List.mem_cons.mp hm with h1 | h1
      · rw [h1] at hf
        rw [hf] at hc
        injection hc with e1 e2
        dsimp only
        rw [← e1, ← e2, ← h1, hnone]
      · rw [ih h1]
        dsimp only
        cases hd : diffGo (rel ++ "/" ++ m) c2' n2' (sortedNames c2' n2') <;> rfl

theorem classify_fail_of_mismatch {ces nes : List (String × FsTree)} {name : String}
    {c n : FsTree} (hc : dlookup ces name = some c) (hn : dlookup nes name = some n)
    (h1 : ¬(isFileNoFollow c = true ∧ isFileNoFollow n = true))
    (h2 : ¬(isDirFollow c = true ∧ isDirFollow n = true)) :
    classify ces nes name = .fail := by
  unfold classify
  rw [hc, hn]
  dsimp only
  rw [if_neg (by simpa [Bool.and_eq_true] using h1)]
  rw [if_neg (by simpa [Bool.and_eq_true] using h2)]

theorem classify_descend_of_dirs {ces nes : List (String × FsTree)} {name : String}
    {c n : FsTree} (hc : dlookup ces name = some c) (hn : dlookup nes name = some n)
    (h1 : ¬(isFileNoFollow c = true ∧ isFileNoFollow n = true))
    (h2 : isDirFollow c = true) (h3 : isDirFollow n = true) :
    classify ces nes name
      = .descend (filterSwap (childEntries c)) (filterSwap (childEntries n)) := by
  unfold classify
  rw [hc, hn]
  dsimp only
  rw [if_neg (by simpa [Bool.and_eq_true] using h1)]
  rw [if_pos (by simp [h2, h3])]

theorem mismatch_diffGo_none {ces nes : List (String × FsTree)} {path : List String}
    (h : MismatchAt ces nes path) :
    ∀ rel : String, diffGo rel ces nes (sortedNames ces nes) = none := by
  induction h with
  | here hc hn h1 h2 =>
    intro rel
    exact diffGo_none_of_fail (classify_fail_of_mismatch hc hn h1 h2)
      (mem_sortedNames.mpr (List.mem_append_left _ (dlookup_mem_names hc)))
  | deeper hc hn h1 h2 h3 _ ih =>
    intro rel
    exact diffGo_none_of_descend_none (classify_descend_of_dirs hc hn h1 h2 h3)
      (ih _) (mem_sortedNames.mpr (List.mem_append_left _ (dlookup_mem_names hc)))

def fsC2 : FS := [("t", .dir [("x", .file "1")]), ("t.new", .dir [("x", .dir [])]),
  ("u", .file "a"), ("u.new", .file "a")]

/-- C2 (counterexample): the claim says a file-vs-directory mismatch at any
depth is unrecoverable only for that argument and the remaining top-level
arguments are still processed.  On this concrete run, the first argument's
trees disagree on `x` (a file in `t`, a directory in `t.new`): the whole
run crashes (the `assert 0` of source line 151) with the filesystem
unchanged, and the second argument `u` — which on its own would be
processed and would remove its identical candidate `u.new` — is never
reached. -/
theorem c2_nested_mismatch_aborts_counterexample :
    runArgs none fsC2 [] ["t", "u"] = (fsC2, .crashed) ∧
    runArgs none fsC2 [] ["u"] = (fsErase fsC2 "u.new", .ok []) ∧
    fsLookup fsC2 "u.new" = some (.file "a") ∧
    fsLookup (fsErase fsC2 "u.new") "u.new" = none :=
  ⟨runArgsF_sound (show runArgsF 40 none fsC2 [] ["t", "u"]
      = some (fsC2, .crashed) from rfl),
    runArgsF_sound (show runArgsF 40 none fsC2 [] ["u"]
      = some (fsErase fsC2 "u.new", .ok []) from rfl),
    rfl, rfl⟩

/-- C2 (amended): a file-vs-directory disagreement between the current and
new sides of a top-level argument is reported without guessing a side and
only that argument is skipped — the filesystem is untouched and the loop
carries on with the remaining arguments; but a disagreement at any depth
inside a directory merge triggers the `assert 0` of `recurse_on_rel_path`,
which aborts the entire run (the remaining arguments are not processed). -/
theorem c2_mismatch_top_skips_nested_crashes :
    (∀ (fs : FS) (cur_path new_path : String) (lines : List String) (curT newT : FsTree),
      fsLookup fs cur_path = some curT →
      fsLookup fs new_path = some newT →
      get_type curT ≠ "other" → get_type newT ≠ "other" →
      get_type curT ≠ get_type newT →
      withPaths fs cur_path new_path lines = (fs, .ok lines)) ∧
    (∀ (pre : Option String) (fs : FS) (arg : String) (lines : List String)
      (rest : List String),
      process_arg pre fs arg lines = (fs, .ok lines) →
      runArgs pre fs lines (arg :: rest) = runArgs pre fs lines rest) ∧
    (∀ (fs : FS) (cur_root new_root : String) (lines : List String) (curT newT : FsTree)
      (path : List String),
      fsLookup fs cur_root = some curT →
      fsLookup fs new_root = some newT →
      MismatchAt (filterSwap (entriesOf curT)) (filterSwap (entriesOf newT)) path →
      handle_dirs fs cur_root new_root lines = (fs, .crashed)) := by
  refine ⟨?_, ?_, ?_⟩
  · intro fs cur_path new_path lines curT newT hc hn h3 h4 h5
    unfold withPaths
    rw [if_neg (by rw [show os_path_exists fs new_path = (fsLookup fs new_path).isSome
      from rfl, hn]; simp)]
    rw [if_neg (by rw [show os_path_exists fs cur_path = (fsLookup fs cur_path).isSome
      from rfl, hc]; simp)]
    rw [hc, hn]
    dsimp only
    rw [if_neg h3, if_neg h4, if_pos h5]
  · intro pre fs arg lines rest h
    rw [runArgs, h]
  · intro fs cur_root new_root lines curT newT path hc hn hm
    unfold handle_dirs
    rw [hc, hn]
    dsimp only
    rw [show treeDiff curT newT = none from mismatch_diffGo_none hm "."]

def fsC2w1 : FS := [("m", .dir []), ("m.new", .file "z")]

def fsC2w2 : FS := [("w", .dir [("x", .file "1")]), ("w.new", .dir [("x", .dir [])])]

theorem c2_mismatch_top_skips_nested_crashes_witness :
    withPaths fsC2w1 "m" "m.new" [] = (fsC2w1, .ok []) ∧
    runArgs none fsC2w1 [] ["m", "z"] = runArgs none fsC2w1 [] ["z"] ∧
    handle_dirs fsC2w2 "w" "w.new" [] = (fsC2w2, .crashed) :=
  ⟨c2_mismatch_top_skips_nested_crashes.1 fsC2w1 "m" "m.new" [] _ _
      (show fsLookup fsC2w1 "m" = some (.dir []) from rfl)
      (show fsLookup fsC2w1 "m.new" = some (.file "z") from rfl)
      (by decide) (by decide) (by decide),
    c2_mismatch_top_skips_nested_crashes.2.1 none fsC2w1 "m" [] ["z"] rfl,
    c2_mismatch_top_skips_nested_crashes.2.2 fsC2w2 "w" "w.new" [] _ _ ["x"]
      (show fsLookup fsC2w2 "w" = some (.dir [("x", .file "1")]) from rfl)
      (show fsLookup fsC2w2 "w.new" = some (.dir [("x", .dir [])]) from rfl)
      (MismatchAt.here
        (show dlookup (filterSwap (entriesOf (.dir [("x", .file "1")]))) "x"
          = some (.file "1") from rfl)
        (show dlookup (filterSwap (entriesOf (.dir [("x", .dir [])]))) "x"
          = some (.dir []) from rfl)
        (by decide) (by decide))⟩

/-! ## Claim C7: swap-named entries never give rise to actions -/

theorem one_le_sizeOf_entries : ∀ es : List (String × FsTree), 1 ≤ sizeOf es := by
  intro es
  cases es with
  | nil => simp
  | cons e rest => simp only [List.cons.sizeOf_spec]; omega

theorem classify_descend_swapFree {ces nes c2 n2 : List (String × FsTree)} {name : String}
    (h : classify ces nes name = .descend c2 n2) :
    ∀ m ∈ sortedNames c2 n2, isSwapName m = false := by
  unfold classify at h
  cases hc : dlookup ces name with
  | none => cases hn : dlookup nes name <;> simp [hc, hn] at h
  | some c =>
    cases hn : dlookup nes name with
    | none => simp [hc, hn] at h
    | some n =>
      simp only [hc, hn] at h
      by_cases h1 : isFileNoFollow c && isFileNoFollow n
      · simp [h1] at h
      · simp only [h1, Bool.false_eq_true, if_false] at h
        by_cases h2 : isDirFollow c && isDirFollow n
        · simp only [h2, if_true, Step.descend.injEq] at h
          obtain ⟨hc2, hn2⟩ := h
          intro m hm
          rcases List.mem_append.mp (mem_sortedNames.mp hm) with hmm | hmm
          · exact mem_namesOf_filterSwap (by rw [hc2]; exact hmm)
          · exact mem_namesOf_filterSwap (by rw [hn2]; exact hmm)
        · simp [h2] at h

theorem diffGo_clean : ∀ (N : Nat) (rel : String) (ces nes : List (String × FsTree))
    (names : List String) (acts : List (String × Verb)),
    sizeOf ces + sizeOf nes ≤ N →
    (∀ n ∈ names, isSwapName n = false) →
    diffGo rel ces nes names = some acts →
    ∀ pv ∈ acts, CleanFrom rel pv.1 := by
  intro N
  induction N with
  | zero =>
    intro rel ces nes names acts hle _ _
    have h1 := one_le_sizeOf_entries ces
    have h2 := one_le_sizeOf_entries nes
    omega
  | succ N ihN =>
    intro rel ces nes names
    induction names with
    | nil =>
      intro acts _ _ h
      rw [diffGo] at h
      injection h with h
      intro pv hpv
      rw [← h] at hpv
      cases hpv
    | cons name rest ihL =>
      intro acts hle hsw h
      rw [diffGo] at h
      revert h
      cases hc : classify ces nes name with
      | fail => intro h; simp at h
      | act v =>
        intro h
        cases hr : diffGo rel ces nes rest with
        | none => rw [hr] at h; simp at h
        | some rs =>
          rw [hr] at h
          simp only [Option.some.injEq, List.singleton_append] at h
          intro pv hpv
          rw [← h] at hpv
          rcases List.mem_cons.mp hpv with h1 | h1
          · rw [h1]
            exact CleanFrom.here rel name (hsw name (List.mem_cons_self _ _))
          · exact ihL rs hle (fun n hn => hsw n (List.mem_cons_of_mem _ hn)) hr pv h1
      | descend c2 n2 =>
        intro h
        dsimp only at h
        cases hd : diffGo (rel ++ "/" ++ name) c2 n2 (sortedNames c2 n2) with
        | none => rw [hd] at h; simp at h
        | some ds =>
          rw [hd] at h
          cases hr : diffGo rel ces nes rest with
          | none => rw [hr] at h; simp at h
          | some rs =>
            rw [hr] at h
            simp only [Option.some.injEq] at h
            intro pv hpv
            rw [← h] at hpv
            rcases List.mem_append.mp hpv with h1 | h1
            · have hchild : sizeOf c2 + sizeOf n2 ≤ N := by
                have := classify_descend_sizes hc
                omega
              have hdeep := ihN (rel ++ "/" ++ name) c2 n2 (sortedNames c2 n2) ds hchild
                (classify_descend_swapFree hc) hd pv h1
              exact CleanFrom.deeper rel name pv.1 (hsw name (List.mem_cons_self _ _)) hdeep
            · exact ihL rs hle (fun n hn => hsw n (List.mem_cons_of_mem _ hn)) hr pv h1

theorem mem_would {acts : List (String × Verb)} {v : Verb} {p : String} :
    p ∈ would acts v ↔ (p, v) ∈ acts := by
  unfold would sortActs
  constructor
  · intro h
    rcases List.mem_map.mp h with ⟨a, ha, hfst⟩
    have hmem := (sortByLe_perm pairLe acts).mem_iff.mp (List.mem_filter.mp ha).1
    have hv : a.2 = v := by simpa using (List.mem_filter.mp ha).2
    obtain ⟨a1, a2⟩ := a
    dsimp only at hfst hv
    rw [← hfst, ← hv]
    exact hmem
  · intro h
    exact List.mem_map.mpr ⟨(p, v), List.mem_filter.mpr
      ⟨(sortByLe_perm pairLe acts).mem_iff.mpr h, by simp⟩, rfl⟩

/-- C7 (confirmed): for every directory merge, every relative path carrying
an Action — and hence every path in every VerbGroup — decomposes, starting
at the root ".", into a chain of name components none of which matches the
editor swap-file glob `.*.swp`: an entry matching the glob on either side
at any level is filtered out before pairing and never appears in any
Action or group, and nothing below it does either. -/
theorem c7_swap_names_never_appear {cur_tree new_tree : FsTree} {acts : List (String × Verb)}
    (hd : treeDiff cur_tree new_tree = some acts) :
    (∀ pv ∈ acts, CleanFrom "." pv.1) ∧
    (∀ (v : Verb) (p : String), p ∈ would acts v → CleanFrom "." p) := by
  have hmain : ∀ pv ∈ acts, CleanFrom "." pv.1 := by
    unfold treeDiff at hd
    intro pv hpv
    exact diffGo_clean (sizeOf (filterSwap (entriesOf cur_tree))
        + sizeOf (filterSwap (entriesOf new_tree))) "."
      (filterSwap (entriesOf cur_tree)) (filterSwap (entriesOf new_tree)) _ acts le_rfl
      (fun n hn => by
        rcases List.mem_append.mp (mem_sortedNames.mp hn) with h1 | h1
        · exact mem_namesOf_filterSwap h1
        · exact mem_namesOf_filterSwap h1)
      hd pv hpv
  refine ⟨hmain, ?_⟩
  intro v p hp
  exact hmain (p, v) (mem_would.mp hp)

def treeC7cur : FsTree := .dir [(".x.swp", .file "s"), ("a", .file "1")]

def treeC7new : FsTree := .dir [("a", .file "2")]

theorem c7_swap_names_never_appear_witness : CleanFrom "." "./a" :=
  (c7_swap_names_never_appear (treeDiffF_sound (show treeDiffF 40 treeC7cur treeC7new
    = some (some [("./a", .alter)]) from rfl))).2 .alter "./a" (by decide)

/-! ## Claim C8: structure of the action keys and the verb groups -/

theorem key_assoc (a m s : String) : a ++ "/" ++ m ++ "/" ++ s = a ++ "/" ++ (m ++ "/" ++ s) := by
  simp [String.append_assoc]

theorem slashFree_of_mem_namesOf {es : List (String × FsTree)} {n : String}
    (hw : WfE es) (h : n ∈ namesOf es) : slashFree n := by
  rcases List.mem_map.mp h with ⟨e, he, hfst⟩
  exact hfst ▸ hw.2.1 e he

theorem wfE_entriesOf {t : FsTree} (h : Wf t) : WfE (entriesOf t) := by
  cases t with
  | dir es => exact wfE_of_dir h
  | file s =>
    exact ⟨List.nodup_nil, fun e he => absurd he (List.not_mem_nil e),
      fun e he => absurd he (List.not_mem_nil e)⟩
  | link u =>
    exact ⟨List.nodup_nil, fun e he => absurd he (List.not_mem_nil e),
      fun e he => absurd he (List.not_mem_nil e)⟩
  | other =>
    exact ⟨List.nodup_nil, fun e he => absurd he (List.not_mem_nil e),
      fun e he => absurd he (List.not_mem_nil e)⟩

theorem nodup_keys_functional {acts : List (String × Verb)}
    (h : (acts.map Prod.fst).Nodup) {p : String} {v w : Verb} :
    (p, v) ∈ acts → (p, w) ∈ acts → v = w := by
  induction acts with
  | nil => intro hv _; cases hv
  | cons a rest ih =>
    intro hv hw
    rw [List.map_cons, List.nodup_cons] at h
    rcases List.mem_cons.mp hv with h1 | h1 <;> rcases List.mem_cons.mp hw with h2 | h2
    · rw [← h1] at h2; injection h2 with _ e; exact e.symm
    · exact absurd (List.mem_map.mpr ⟨(p, w), h2, by rw [← h1]⟩) h.1
    · exact absurd (List.mem_map.mpr ⟨(p, v), h1, by rw [← h2]⟩) h.1
    · exact ih h.2 h1 h2

theorem diffGo_keys_shape : ∀ (N : Nat) (rel : String) (ces nes : List (String × FsTree))
    (names : List String) (acts : List (String × Verb)),
    sizeOf ces + sizeOf nes ≤ N →
    diffGo rel ces nes names = some acts →
    ∀ pv ∈ acts, ∃ name ∈ names, pv.1 = rel ++ "/" ++ name ∨
      ∃ suf : String, pv.1 = rel ++ "/" ++ name ++ "/" ++ suf := by
  intro N
  induction N with
  | zero =>
    intro rel ces nes names acts hle _
    have h1 := one_le_sizeOf_entries ces
    have h2 := one_le_sizeOf_entries nes
    omega
  | succ N ihN =>
    intro rel ces nes names
    induction names with
    | nil =>
      intro acts _ h
      rw [diffGo] at h
      injection h with h
      intro pv hpv
      rw [← h] at hpv
      cases hpv
    | cons name rest ihL =>
      intro acts hle h
      rw [diffGo] at h
      revert h
      cases hc : classify ces nes name with
      | fail => intro h; simp at h
      | act v =>
        intro h
        cases hr : diffGo rel ces nes rest with
        | none => rw [hr] at h; simp at h
        | some rs =>
          rw [hr] at h
          simp only [Option.some.injEq, List.singleton_append] at h
          intro pv hpv
          rw [← h] at hpv
          rcases List.mem_cons.mp hpv with h1 | h1
          · exact ⟨name, List.mem_cons_self _ _, Or.inl (by rw [h1])⟩
          · rcases ihL rs hle hr pv h1 with ⟨m, hm, hshape⟩
            exact ⟨m, List.mem_cons_of_mem _ hm, hshape⟩
      | descend c2 n2 =>
        intro h
        dsimp only at h
        cases hd : diffGo (rel ++ "/" ++ name) c2 n2 (sortedNames c2 n2) with
        | none => rw [hd] at h; simp at h
        | some ds =>
          rw [hd] at h
          cases hr : diffGo rel ces nes rest with
          | none => rw [hr] at h; simp at h
          | some rs =>
            rw [hr] at h
            simp only [Option.some.injEq] at h
            intro pv hpv
            rw [← h] at hpv
            rcases List.mem_append.mp hpv with h1 | h1
            · have hchild : sizeOf c2 + sizeOf n2 ≤ N := by
                have := classify_descend_sizes hc
                omega
              rcases ihN (rel ++ "/" ++ name) c2 n2 (sortedNames c2 n2) ds hchild hd pv h1
                with ⟨m, _, hshape⟩
              refine ⟨name, List.mem_cons_self _ _, Or.inr ?_⟩
              rcases hshape with hs1 | ⟨suf2, hs2⟩
              · exact ⟨m, hs1⟩
              · exact ⟨m ++ "/" ++ suf2, by rw [hs2, key_assoc]⟩
            · rcases ihL rs hle hr pv h1 with ⟨m, hm, hshape⟩
              exact ⟨m, List.mem_cons_of_mem _ hm, hshape⟩

theorem diffGo_keys_nodup : ∀ (N : Nat) (rel : String) (ces nes : List (String × FsTree))
    (names : List String) (acts : List (String × Verb)),
    sizeOf ces + sizeOf nes ≤ N →
    WfE ces → WfE nes →
    names.Nodup → (∀ n ∈ names, slashFree n) →
    diffGo rel ces nes names = some acts →
    (acts.map Prod.fst).Nodup := by
  intro N
  induction N with
  | zero =>
    intro rel ces nes names acts hle _ _ _ _ _
    have h1 := one_le_sizeOf_entries ces
    have h2 := one_le_sizeOf_entries nes
    omega
  | succ N ihN =>
    intro rel ces nes names
    induction names with
    | nil =>
      intro acts _ _ _ _ _ h
      rw [diffGo] at h
      injection h with h
      rw [← h]
      exact List.nodup_nil
    | cons name rest ihL =>
      intro acts hle hwc hwn hnd hsf h
      rw [List.nodup_cons] at hnd
      have hsfr : ∀ n ∈ rest, slashFree n := fun n hn => hsf n (List.mem_cons_of_mem _ hn)
      have hsfn : slashFree name := hsf name (List.mem_cons_self _ _)
      rw [diffGo] at h
      revert h
      cases hc : classify ces nes name with
      | fail => intro h; simp at h
      | act v =>
        intro h
        cases hr : diffGo rel ces nes rest with
        | none => rw [hr] at h; simp at h
        | some rs =>
          rw [hr] at h
          simp only [Option.some.injEq, List.singleton_append] at h
          rw [← h]
          rw [List.map_cons, List.nodup_cons]
          refine ⟨?_, ihL rs hle hwc hwn hnd.2 hsfr hr⟩
          intro hmem
          rcases List.mem_map.mp hmem with ⟨pv, hpv, hkey⟩
          rcases diffGo_keys_shape (N + 1) rel ces nes rest rs hle hr pv hpv
            with ⟨m, hm, hshape⟩
          have hnm : name ≠ m := fun e => hnd.1 (e ▸ hm)
          rcases hshape with hs1 | ⟨suf, hs2⟩
          · exact key_shallow_ne hnm (hkey.symm.trans hs1)
          · exact key_shallow_ne_deep hsfn (hkey.symm.trans hs2)
      | descend c2 n2 =>
        intro h
        dsimp only at h
        cases hd : diffGo (rel ++ "/" ++ name) c2 n2 (sortedNames c2 n2) with
        | none => rw [hd] at h; simp at h
        | some ds =>
          rw [hd] at h
          cases hr : diffGo rel ces nes rest with
          | none => rw [hr] at h; simp at h
          | some rs =>
            rw [hr] at h
            simp only [Option.some.injEq] at h
            rw [← h]
            rw [List.map_append, List.nodup_append]
            have hchild : sizeOf c2 + sizeOf n2 ≤ N := by
              have := classify_descend_sizes hc
              omega
            obtain ⟨hwc2, hwn2⟩ := classify_descend_wf hwc hwn hc
            have hdeepnodup : (ds.map Prod.fst).Nodup :=
              ihN (rel ++ "/" ++ name) c2 n2 (sortedNames c2 n2) ds hchild hwc2 hwn2
                (sortedNames_nodup c2 n2)
                (fun n hn => by
                  rcases List.mem_append.mp (mem_sortedNames.mp hn) with h1 | h1
                  · exact slashFree_of_mem_namesOf hwc2 h1
                  · exact slashFree_of_mem_namesOf hwn2 h1) hd
            refine ⟨hdeepnodup, ihL rs hle hwc hwn hnd.2 hsfr hr, ?_⟩
            intro k hk1 hk2
            rcases List.mem_map.mp hk1 with ⟨pv1, hpv1, hkey1⟩
            rcases List.mem_map.mp hk2 with ⟨pv2, hpv2, hkey2⟩
            rcases diffGo_keys_shape (N + 1) (rel ++ "/" ++ name) c2 n2 (sortedNames c2 n2)
              ds (by omega) hd pv1 hpv1 with ⟨m1, hm1mem, hshape1⟩
            rcases diffGo_keys_shape (N + 1) rel ces nes rest rs hle hr pv2 hpv2
              with ⟨m2, hm2mem, hshape2⟩
            have hsfm2 : slashFree m2 := hsfr m2 hm2mem
            have hnm2 : name ≠ m2 := fun e => hnd.1 (e ▸ hm2mem)
            have hk1shape : ∃ suf : String, k = rel ++ "/" ++ name ++ "/" ++ suf := by
              rcases hshape1 with hs1 | ⟨suf2, hs2⟩
              · exact ⟨m1, by rw [← hkey1, hs1]⟩
              · exact ⟨m1 ++ "/" ++ suf2, by rw [← hkey1, hs2, key_assoc]⟩
            obtain ⟨suf, hksuf⟩ := hk1shape
            rcases hshape2 with hs1 | ⟨suf2, hs2⟩
            · exact key_shallow_ne_deep hsfm2 ((hs1.symm.trans hkey2).trans hksuf)
            · exact key_deep_ne_deep hsfn hsfm2 hnm2
                (hksuf.symm.trans ((hs2.symm.trans hkey2).symm))

/-- C8 (confirmed): for every ActionSet produced by the tree diff on
well-formed trees (distinct, slash-free entry names per directory, as on a
real filesystem), the four verb groups are pairwise disjoint (no path is in
two groups), their union is exactly the set of relative paths that carry a
direct Action (the keys of the ActionSet — recursion-only directories
contribute no key), and each group is sorted in the code-point
lexicographic order used by Python's `sorted`. -/
theorem c8_verb_groups
    {cur_tree new_tree : FsTree} {acts : List (String × Verb)}
    (hwc : Wf cur_tree) (hwn : Wf new_tree)
    (hd : treeDiff cur_tree new_tree = some acts) :
    (∀ v w : Verb, v ≠ w → ∀ p : String, p ∈ would acts v → p ∉ would acts w) ∧
    (∀ p : String, (∃ v, p ∈ would acts v) ↔ p ∈ acts.map Prod.fst) ∧
    (∀ v : Verb, (would acts v).Pairwise (fun a b => strLe a b = true)) := by
  have hnodup : (acts.map Prod.fst).Nodup := by
    unfold treeDiff at hd
    exact diffGo_keys_nodup (sizeOf (filterSwap (entriesOf cur_tree))
        + sizeOf (filterSwap (entriesOf new_tree))) "."
      (filterSwap (entriesOf cur_tree)) (filterSwap (entriesOf new_tree)) _ acts le_rfl
      (wfE_filterSwap (wfE_entriesOf hwc)) (wfE_filterSwap (wfE_entriesOf hwn))
      (sortedNames_nodup _ _)
      (fun n hn => by
        rcases List.mem_append.mp (mem_sortedNames.mp hn) with h1 | h1
        · exact slashFree_of_mem_namesOf (wfE_filterSwap (wfE_entriesOf hwc)) h1
        · exact slashFree_of_mem_namesOf (wfE_filterSwap (wfE_entriesOf hwn)) h1)
      hd
  refine ⟨?_, ?_, ?_⟩
  · intro v w hvw p hv hw
    exact hvw (nodup_keys_functional hnodup (mem_would.mp hv) (mem_would.mp hw))
  · intro p
    constructor
    · rintro ⟨v, hv⟩
      exact List.mem_map.mpr ⟨(p, v), mem_would.mp hv, rfl⟩
    · intro hp
      rcases List.mem_map.mp hp with ⟨⟨p1, v⟩, hmem, hfst⟩
      exact ⟨v, mem_would.mpr (by dsimp only at hfst; rw [← hfst]; exact hmem)⟩
  · intro v
    have htot : ∀ a b : String × Verb, pairLe a b = true ∨ pairLe b a = true :=
      fun a b => strLe_total a.1 b.1
    have htrans : ∀ {x y z : String × Verb}, pairLe x y = true → pairLe y z = true →
        pairLe x z = true := fun h1 h2 => strLe_trans h1 h2
    have hp : (sortActs acts).Pairwise (fun a b => pairLe a b = true) :=
      sortByLe_pairwise htot htrans acts
    have hf : ((sortActs acts).filter (fun a => a.2 == v)).Pairwise
        (fun a b => pairLe a b = true) :=
      hp.sublist (List.filter_sublist (sortActs acts))
    unfold would
    exact (List.pairwise_map).mpr hf

def treeC8cur : FsTree := .dir [("b", .file "2"), ("a", .file "1")]

def treeC8new : FsTree := .dir [("a", .file "1"), ("c", .file "3")]

def actsC8 : List (String × Verb) := [("./a", .leave), ("./b", .delete), ("./c", .create)]

theorem c8_verb_groups_witness :
    ("./b" ∈ would actsC8 .delete → "./b" ∉ would actsC8 .create) ∧
    ((∃ v, "./b" ∈ would actsC8 v) ↔ "./b" ∈ actsC8.map Prod.fst) ∧
    (would actsC8 .delete).Pairwise (fun a b => strLe a b = true) := by
  have hw1 : Wf treeC8cur := by
    refine Wf.dir (by decide) (by decide) ?_
    intro e he
    rcases List.mem_cons.mp he with h | h
    · rw [h]; exact Wf.file "2"
    · rw [List.mem_singleton.mp h]; exact Wf.file "1"
  have hw2 : Wf treeC8new := by
    refine Wf.dir (by decide) (by decide) ?_
    intro e he
    rcases List.mem_cons.mp he with h | h
    · rw [h]; exact Wf.file "1"
    · rw [List.mem_singleton.mp h]; exact Wf.file "3"
  have hd : treeDiff treeC8cur treeC8new = some actsC8 :=
    treeDiffF_sound (show treeDiffF 40 treeC8cur treeC8new = some (some actsC8) from rfl)
  have main := c8_verb_groups hw1 hw2 hd
  exact ⟨fun hmem => main.1 .delete .create (by decide) "./b" hmem,
    main.2.1 "./b", main.2.2 .delete⟩

/-! ## Claim C9: the diff only depends on tree contents, not listing order -/

theorem sameListing_file_left {s : String} {b : FsTree} (h : sameListing (.file s) b) :
    b = .file s := by
  cases b with
  | file t => simp [sameListing] at h; rw [h]
  | dir fs => simp [sameListing] at h
  | link y => simp [sameListing] at h
  | other => simp [sameListing] at h

theorem sameListing_link_left {x : FsTree} {b : FsTree} (h : sameListing (.link x) b) :
    ∃ y, b = .link y ∧ sameListing x y := by
  cases b with
  | file t => simp [sameListing] at h
  | dir fs => simp [sameListing] at h
  | link y => rw [sameListing] at h; exact ⟨y, rfl, h⟩
  | other => simp [sameListing] at h

theorem sameListing_other_left {b : FsTree} (h : sameListing .other b) : b = .other := by
  cases b with
  | file t => simp [sameListing] at h
  | dir fs => simp [sameListing] at h
  | link y => simp [sameListing] at h
  | other => rfl

theorem sameListing_dir_left {es : List (String × FsTree)} {b : FsTree}
    (h : sameListing (.dir es) b) :
    ∃ fs, b = .dir fs ∧ (∀ n, n ∈ namesOf es ↔ n ∈ namesOf fs) ∧
      (∀ n c d, dlookup es n = some c → dlookup fs n = some d → sameListing c d) := by
  cases b with
  | file t => simp [sameListing] at h
  | dir fs => rw [sameListing] at h; exact ⟨fs, rfl, h.1, h.2⟩
  | link y => simp [sameListing] at h
  | other => simp [sameListing] at h

theorem sameListing_dir_intro {es fs : List (String × FsTree)}
    (h1 : ∀ n, n ∈ namesOf es ↔ n ∈ namesOf fs)
    (h2 : ∀ n c d, dlookup es n = some c → dlookup fs n = some d → sameListing c d) :
    sameListing (.dir es) (.dir fs) := by
  rw [sameListing]
  exact ⟨h1, h2⟩

theorem sameListing_refl : ∀ t : FsTree, sameListing t t
  | .file s => by rw [sameListing]
  | .other => by rw [sameListing]; trivial
  | .link x => by rw [sameListing]; exact sameListing_refl x
  | .dir es => by
    rw [sameListing]
    refine ⟨fun n => Iff.rfl, ?_⟩
    intro n c d h1 h2
    rw [h1] at h2
    injection h2 with h2
    rw [← h2]
    have := dlookup_mem h1
    have hlt : sizeOf c < sizeOf es := by
      have := sizeOf_mem_entry (dlookup_mem h1)
      simp only [Prod.mk.sizeOf_spec] at this
      omega
    exact sameListing_refl c
termination_by t => sizeOf t
decreasing_by
  · simp only [FsTree.link.sizeOf_spec]; omega
  · simp only [FsTree.dir.sizeOf_spec]; omega

theorem sameListing_resolve : (a : FsTree) → ∀ {b : FsTree}, sameListing a b →
    sameListing a.resolve b.resolve
  | .link x => fun h => by
    obtain ⟨y, rfl, hxy⟩ := sameListing_link_left h
    simpa [FsTree.resolve] using sameListing_resolve x hxy
  | .file s => fun h => by
    rw [sameListing_file_left h]
    exact sameListing_refl _
  | .dir es => fun h => by
    obtain ⟨fs, rfl, h1, h2⟩ := sameListing_dir_left h
    simpa [FsTree.resolve] using h
  | .other => fun h => by
    rw [sameListing_other_left h]
    exact sameListing_refl _

theorem sameListing_isFile {a b : FsTree} (h : sameListing a b) :
    isFileNoFollow a = isFileNoFollow b := by
  cases a with
  | file s => rw [sameListing_file_left h]
  | link x => obtain ⟨y, rfl, _⟩ := sameListing_link_left h; rfl
  | dir es => obtain ⟨fs, rfl, _, _⟩ := sameListing_dir_left h; rfl
  | other => rw [sameListing_other_left h]

theorem sameListing_isDir {a b : FsTree} (h : sameListing a b) :
    isDirFollow a = isDirFollow b := by
  have hr := sameListing_resolve a h
  unfold isDirFollow
  cases hra : a.resolve with
  | file s => rw [hra] at hr; rw [sameListing_file_left hr]
  | link x => rw [hra] at hr; obtain ⟨y, hy, _⟩ := sameListing_link_left hr; rw [hy]
  | dir es => rw [hra] at hr; obtain ⟨fs, hy, _, _⟩ := sameListing_dir_left hr; rw [hy]
  | other => rw [hra] at hr; rw [sameListing_other_left hr]

theorem sameListing_contentOf {a b : FsTree} (h : sameListing a b) :
    contentOf a = contentOf b := by
  have hr := sameListing_resolve a h
  unfold contentOf
  cases hra : a.resolve with
  | file s => rw [hra] at hr; rw [sameListing_file_left hr]
  | link x => rw [hra] at hr; obtain ⟨y, hy, _⟩ := sameListing_link_left hr; rw [hy]
  | dir es => rw [hra] at hr; obtain ⟨fs, hy, _, _⟩ := sameListing_dir_left hr; rw [hy]
  | other => rw [hra] at hr; rw [sameListing_other_left hr]

/-- The relation `sameListing` induces on two directory listings. -/
def EntsRel (es fs : List (String × FsTree)) : Prop :=
  (∀ n, n ∈ namesOf es ↔ n ∈ namesOf fs) ∧
  (∀ n c d, dlookup es n = some c → dlookup fs n = some d → sameListing c d)

theorem entsRel_entriesOf {a b : FsTree} (h : sameListing a b) :
    EntsRel (entriesOf a) (entriesOf b) := by
  cases a with
  | dir es =>
    obtain ⟨fs, rfl, h1, h2⟩ := sameListing_dir_left h
    exact ⟨h1, h2⟩
  | file s =>
    rw [sameListing_file_left h]
    exact ⟨fun n => Iff.rfl, fun n c d h1 _ => by cases h1⟩
  | link x =>
    obtain ⟨y, rfl, _⟩ := sameListing_link_left h
    exact ⟨fun n => Iff.rfl, fun n c d h1 _ => by cases h1⟩
  | other =>
    rw [sameListing_other_left h]
    exact ⟨fun n => Iff.rfl, fun n c d h1 _ => by cases h1⟩

theorem entsRel_childEntries {a b : FsTree} (h : sameListing a b) :
    EntsRel (childEntries a) (childEntries b) :=
  entsRel_entriesOf (sameListing_resolve a h)

theorem mem_namesOf_filterSwap_iff {es : List (String × FsTree)} {n : String} :
    n ∈ namesOf (filterSwap es) ↔ n ∈ namesOf es ∧ isSwapName n = false := by
  constructor
  · intro h
    refine ⟨?_, mem_namesOf_filterSwap h⟩
    rcases List.mem_map.mp h with ⟨e, he, hfst⟩
    exact List.mem_map.mpr ⟨e, List.mem_of_mem_filter he, hfst⟩
  · rintro ⟨hm, hs⟩
    rcases List.mem_map.mp hm with ⟨e, he, hfst⟩
    exact List.mem_map.mpr ⟨e, List.mem_filter.mpr ⟨he, by rw [hfst, hs]; rfl⟩, hfst⟩

theorem entsRel_filterSwap {es fs : List (String × FsTree)} (h : EntsRel es fs) :
    EntsRel (filterSwap es) (filterSwap fs) := by
  refine ⟨?_, ?_⟩
  · intro n
    rw [mem_namesOf_filterSwap_iff, mem_namesOf_filterSwap_iff, h.1 n]
  · intro n c d h1 h2
    have hs : isSwapName n = false := by
      by_cases hsw : isSwapName n
      · exact absurd (dlookup_mem_names h1)
          (fun hm => by rw [(mem_namesOf_filterSwap hm : isSwapName n = false)] at hsw; cases hsw)
      · simpa using hsw
    rw [dlookup_filterSwap hs] at h1 h2
    exact h.2 n c d h1 h2

theorem entsRel_lookup_some {es fs : List (String × FsTree)} {n : String} {c : FsTree}
    (h : EntsRel es fs) (hl : dlookup es n = some c) :
    ∃ d, dlookup fs n = some d ∧ sameListing c d := by
  have hm : n ∈ namesOf fs := (h.1 n).mp (dlookup_mem_names hl)
  cases hd : dlookup fs n with
  | none => exact absurd hm (dlookup_eq_none.mp hd)
  | some d => exact ⟨d, rfl, h.2 n c d hl hd⟩

theorem entsRel_lookup_none {es fs : List (String × FsTree)} {n : String}
    (h : EntsRel es fs) (hl : dlookup es n = none) : dlookup fs n = none :=
  dlookup_eq_none.mpr (fun hm => dlookup_eq_none.mp hl ((h.1 n).mpr hm))

theorem sortedNames_eq_of_entsRel {ces nes ces' nes' : List (String × FsTree)}
    (h1 : EntsRel ces ces') (h2 : EntsRel nes nes') :
    sortedNames ces nes = sortedNames ces' nes' :=
  sorted_nodup_unique (sortedNames_pairwise _ _) (sortedNames_pairwise _ _)
    (sortedNames_nodup _ _) (sortedNames_nodup _ _)
    (fun x => by
      rw [mem_sortedNames, mem_sortedNames, List.mem_append, List.mem_append, h1.1 x, h2.1 x])

theorem classify_rel {ces nes ces' nes' : List (String × FsTree)}
    (hrc : EntsRel ces ces') (hrn : EntsRel nes nes') (name : String) :
    (classify ces nes name = .fail → classify ces' nes' name = .fail) ∧
    (∀ v, classify ces nes name = .act v → classify ces' nes' name = .act v) ∧
    (∀ c2 n2, classify ces nes name = .descend c2 n2 →
      ∃ c2' n2', classify ces' nes' name = .descend c2' n2' ∧
        EntsRel c2 c2' ∧ EntsRel n2 n2') := by
  unfold classify
  cases hc : dlookup ces name with
  | none =>
    rw [entsRel_lookup_none hrc hc]
    cases hn : dlookup nes name with
    | none =>
      rw [entsRel_lookup_none hrn hn]
      dsimp only
      refine ⟨?_, ?_, ?_⟩
      · intro _; rfl
      · intro v hv; cases hv
      · intro c2 n2 hv; cases hv
    | some n =>
      obtain ⟨n', hn', _⟩ := entsRel_lookup_some hrn hn
      rw [hn']
      dsimp only
      refine ⟨?_, ?_, ?_⟩
      · intro hv; cases hv
      · intro v hv; rw [← hv]
      · intro c2 n2 hv; cases hv
  | some c =>
    obtain ⟨c', hc', hcc⟩ := entsRel_lookup_some hrc hc
    rw [hc']
    cases hn : dlookup nes name with
    | none =>
      rw [entsRel_lookup_none hrn hn]
      dsimp only
      refine ⟨?_, ?_, ?_⟩
      · intro hv; cases hv
      · intro v hv; rw [← hv]
      · intro c2 n2 hv; cases hv
    | some n =>
      obtain ⟨n', hn', hnn⟩ := entsRel_lookup_some hrn hn
      rw [hn']
      dsimp only
      rw [← sameListing_isFile hcc, ← sameListing_isFile hnn]
      by_cases h1 : isFileNoFollow c && isFileNoFollow n
      · rw [if_pos h1, if_pos h1]
        rw [show sameContent c' n' = sameContent c n by
          unfold sameContent
          rw [sameListing_contentOf hcc, sameListing_contentOf hnn]]
        refine ⟨?_, ?_, ?_⟩
        · intro hv; cases hv
        · intro v hv; exact hv
        · intro c2 n2 hv; cases hv
      · rw [if_neg h1, if_neg h1]
        rw [← sameListing_isDir hcc, ← sameListing_isDir hnn]
        by_cases h2 : isDirFollow c && isDirFollow n
        · rw [if_pos h2, if_pos h2]
          refine ⟨?_, ?_, ?_⟩
          · intro hv; cases hv
          · intro v hv; cases hv
          · intro c2 n2 hv
            injection hv with e1 e2
            exact ⟨filterSwap (childEntries c'), filterSwap (childEntries n'), rfl,
              e1 ▸ entsRel_filterSwap (entsRel_childEntries hcc),
              e2 ▸ entsRel_filterSwap (entsRel_childEntries hnn)⟩
        · rw [if_neg h2, if_neg h2]
          refine ⟨?_, ?_, ?_⟩
          · intro _; rfl
          · intro v hv; cases hv
          · intro c2 n2 hv; cases hv

theorem diffGo_cons (rel : String) (ces nes : List (String × FsTree)) (name : String)
    (rest : List String) :
    diffGo rel ces nes (name :: rest) =
      match (match classify ces nes name with
        | .fail => none
        | .act v => some [(rel ++ "/" ++ name, v)]
        | .descend c2 n2 => diffGo (rel ++ "/" ++ name) c2 n2 (sortedNames c2 n2)),
        diffGo rel ces nes rest with
      | some hs, some rs => some (hs ++ rs)
      | _, _ => none := by
  conv_lhs => rw [diffGo]
  cases hc : classify ces nes name <;> rfl

theorem diffGo_ents_rel : ∀ (N : Nat) (rel : String)
    (ces nes ces' nes' : List (String × FsTree)) (names : List String),
    sizeOf ces + sizeOf nes ≤ N →
    EntsRel ces ces' → EntsRel nes nes' →
    diffGo rel ces nes names = diffGo rel ces' nes' names := by
  intro N
  induction N with
  | zero =>
    intro rel ces nes _ _ names hle _ _
    have h1 := one_le_sizeOf_entries ces
    have h2 := one_le_sizeOf_entries nes
    omega
  | succ N ihN =>
    intro rel ces nes ces' nes' names
    induction names with
    | nil => intro _ _ _; rw [diffGo, diffGo]
    | cons name rest ihL =>
      intro hle hrc hrn
      have hrest : diffGo rel ces nes rest = diffGo rel ces' nes' rest := ihL hle hrc hrn
      rw [diffGo_cons rel ces nes name rest, diffGo_cons rel ces' nes' name rest]
      cases hc : classify ces nes name with
      | fail =>
        rw [(classify_rel hrc hrn name).1 hc]
      | act v =>
        rw [(classify_rel hrc hrn name).2.1 v hc, hrest]
      | descend c2 n2 =>
        obtain ⟨c2', n2', hc', hr1, hr2⟩ := (classify_rel hrc hrn name).2.2 c2 n2 hc
        rw [hc', hrest]
        dsimp only
        have hsz : sizeOf c2 + sizeOf n2 ≤ N := by
          have := classify_descend_sizes hc
          omega
        have hnames : sortedNames c2 n2 = sortedNames c2' n2' :=
          sortedNames_eq_of_entsRel hr1 hr2
        rw [← hnames]
        rw [ihN (rel ++ "/" ++ name) c2 n2 c2' n2' (sortedNames c2 n2) hsz hr1 hr2]

/-- C9 (confirmed): the tree diff iterates the merged name set in sorted
order (first conjunct: the iteration list is sorted in the code-point
order), and its output only depends on the contents of the two trees, not
on the order the filesystem happens to list directory entries: if the
trees of two runs hold the same contents level by level (`sameListing`),
the resulting ActionSet and every reported verb group are identical. -/
theorem c9_diff_independent_of_listing_order :
    (∀ ces nes : List (String × FsTree),
      (sortedNames ces nes).Pairwise (fun a b => strLe a b = true)) ∧
    (∀ cur_tree new_tree cur_tree2 new_tree2 : FsTree,
      sameListing cur_tree cur_tree2 → sameListing new_tree new_tree2 →
      treeDiff cur_tree new_tree = treeDiff cur_tree2 new_tree2 ∧
      ∀ acts acts2, treeDiff cur_tree new_tree = some acts →
        treeDiff cur_tree2 new_tree2 = some acts2 → ∀ v, would acts v = would acts2 v) := by
  refine ⟨sortedNames_pairwise, ?_⟩
  intro ct nt ct2 nt2 h1 h2
  have hrc : EntsRel (filterSwap (entriesOf ct)) (filterSwap (entriesOf ct2)) :=
    entsRel_filterSwap (entsRel_entriesOf h1)
  have hrn : EntsRel (filterSwap (entriesOf nt)) (filterSwap (entriesOf nt2)) :=
    entsRel_filterSwap (entsRel_entriesOf h2)
  have hmain : treeDiff ct nt = treeDiff ct2 nt2 := by
    unfold treeDiff
    dsimp only
    rw [sortedNames_eq_of_entsRel hrc hrn]
    exact diffGo_ents_rel (sizeOf (filterSwap (entriesOf ct))
      + sizeOf (filterSwap (entriesOf nt))) "." _ _ _ _ _ le_rfl hrc hrn
  refine ⟨hmain, ?_⟩
  intro acts acts2 ha ha2 v
  rw [hmain] at ha
  rw [ha] at ha2
  injection ha2 with e
  rw [e]

def treeC9 : FsTree := .dir [("a", .file "1"), ("b", .file "2")]

def treeC9sw : FsTree := .dir [("b", .file "2"), ("a", .file "1")]

def treeC9new : FsTree := .dir [("a", .file "3")]

theorem c9_diff_independent_of_listing_order_witness :
    treeDiff treeC9 treeC9new = treeDiff treeC9sw treeC9new := by
  have hsl : sameListing treeC9 treeC9sw := by
    refine sameListing_dir_intro ?_ ?_
    · intro n
      simp [namesOf]
      tauto
    · intro n c d hc hd
      have hc2 := dlookup_mem hc
      have hd2 := dlookup_mem hd
      simp only [List.mem_cons, List.mem_singleton, Prod.mk.injEq] at hc2 hd2
      rcases hc2 with ⟨e1, e2⟩ | hc2 <;> rcases hd2 with ⟨e3, e4⟩ | hd2 <;> simp_all <;>
        exact sameListing_refl _
  exact (c9_diff_independent_of_listing_order.2 treeC9 treeC9new treeC9sw treeC9new hsl
    (sameListing_refl treeC9new)).1

end CompareAndReplace
